import Mathlib

/-
Verification of the batched MCTS core in
src/lzero/mcts/ctree/ctree_efficientzero/lib/cnode.cpp (namespace tree).

Shallow embedding conventions:
  - C++ float/double values are modelled as rationals (ℚ): the development
    tracks the algebraic structure of the computations, not IEEE rounding.
  - Transcendental primitives (exp, log, sqrt from the C runtime) are taken
    as function parameters (fexp, flog, fsqrt : ℚ → ℚ); every theorem either
    quantifies over them or instantiates them with concrete computable maps.
  - uint64_t arithmetic in encode_action is modelled on ℕ with explicit
    reduction modulo 2 ^ 64.
  - A null child pointer is modelled by Option: get_child returns none where
    the C++ function returns nullptr, and a computation that would
    dereference a null pointer is modelled as returning none.
  - The C++ children container is written through operator[] and compared
    against children.size(); it is modelled as an association list
    List (ℕ × CNode).  (The C++ operator[] lookup on a map also
    default-inserts a null entry when an in-range key is absent; that side
    effect is unobservable in every situation treated below, where keys are
    either present or rejected by the size bound.)
  - The PRNG (rand(), seeded from wall-clock time once per traverse) is
    modelled as an explicit stream of draws (List ℕ) threaded through the
    functions that consume it.
-/

namespace RocketZero

/-! ## Data model: CNode (cnode.cpp lines 72-134) -/

/-- Scalar fields of tree::CNode.  valuePrefix and parentValuePrefix model
the C++ fields value_prefix and parent_value_prefix; latentIdx and batchIdx
model current_latent_state_index and batch_index. -/
structure NodeData where
  prior : ℚ
  legal_actions : List ℕ
  is_reset : ℤ
  visit_count : ℕ
  value_sum : ℚ
  best_action : List ℤ
  to_play : ℤ
  valuePrefix : ℚ
  parentValuePrefix : ℚ
  latentIdx : ℤ
  batchIdx : ℤ
deriving Repr, DecidableEq

/-- A tree node: scalar data plus the children table keyed by the encoded
action (C++ member children, accessed through operator[] and size()). -/
inductive CNode : Type where
  | mk (data : NodeData) (children : List (ℕ × CNode)) : CNode

def CNode.data : CNode → NodeData
  | .mk d _ => d

def CNode.children : CNode → List (ℕ × CNode)
  | .mk _ ch => ch

@[simp] theorem CNode.data_mk (d : NodeData) (ch : List (ℕ × CNode)) :
    (CNode.mk d ch).data = d := rfl

@[simp] theorem CNode.children_mk (d : NodeData) (ch : List (ℕ × CNode)) :
    (CNode.mk d ch).children = ch := rfl

/-- CNode::CNode(float prior, std::vector<int> &legal_actions)
(cnode.cpp lines 90-134): fresh node with the given prior and legal
actions; all counters zero, best_action = {-1,-1,-1,-1}, indices -1. -/
def newCNode (prior : ℚ) (legal_actions : List ℕ) : CNode :=
  .mk { prior := prior
        legal_actions := legal_actions
        is_reset := 0
        visit_count := 0
        value_sum := 0
        best_action := [-1, -1, -1, -1]
        to_play := 0
        valuePrefix := 0
        parentValuePrefix := 0
        latentIdx := -1
        batchIdx := -1 } []

/-- CNode::expanded (cnode.cpp lines 267-274): children.size() > 0. -/
def CNode.expanded (t : CNode) : Bool :=
  t.children.length > 0

/-- CNode::value (cnode.cpp lines 276-292): 0 when unvisited, else
value_sum / visit_count. -/
def CNode.value (t : CNode) : ℚ :=
  if t.data.visit_count = 0 then 0 else t.data.value_sum / t.data.visit_count

/-- Lookup in an association table keyed by ℕ (std::map access by key). -/
def assocFind {α : Type} (k : ℕ) : List (ℕ × α) → Option α
  | [] => none
  | kc :: rest => if kc.1 = k then some kc.2 else assocFind k rest

/-- Map a fallible function over a list, failing as soon as one element
fails (the Option-valued mapM, given its own equations for proofs). -/
def optMapList {α β : Type} (f : α → Option β) : List α → Option (List β)
  | [] => some []
  | x :: xs =>
      match f x with
      | none => none
      | some y => (optMapList f xs).map (fun ys => y :: ys)

/-- CNode::get_child(uint64_t action) (cnode.cpp lines 376-389): nullptr
when the key is at least children.size() or the stored handle is null,
else the stored child. -/
def get_child (t : CNode) (action : ℕ) : Option CNode :=
  if t.children.length ≤ action then none else assocFind action t.children

/-- CNode::encode_action (cnode.cpp lines 355-374): accumulate
a_i + i * ACTIONS_PER_PLAYER over the first min(H, length) slots whose
entry lies in [0, A); clamp the uint64 sum to TOTAL_ACTIONS - 1.
TOTAL_ACTIONS = NUM_ACTION_HEADS * ACTIONS_PER_PLAYER is taken from the
overview comment at cnode.cpp line 25 (the constant itself lives in the
missing header cnode.h). -/
def encode_action (H A : ℕ) (actions : List ℤ) : ℕ :=
  let encoded := ((actions.take H).enum.foldl
    (fun acc p =>
      if 0 ≤ p.2 ∧ p.2 < (A : ℤ) then (acc + (p.2.toNat + p.1 * A)) % 2 ^ 64 else acc) 0)
  if encoded < H * A % 2 ^ 64 then encoded else (H * A + 2 ^ 64 - 1) % 2 ^ 64

/-- CNode::get_child(std::vector<int> actions) (cnode.cpp lines 336-353):
nullptr when the vector length differs from NUM_ACTION_HEADS, else the
child at the encoded key. -/
def get_child_xhot (H A : ℕ) (t : CNode) (actions : List ℤ) : Option CNode :=
  if actions.length ≠ H then none else get_child t (encode_action H A actions)

/-! ## expand, noise, prepare (cnode.cpp lines 138-221, 451-486) -/

/-- FLOAT_MIN from the missing common_lib/utils header.
Modelled from the spec: the most negative finite float (about -3.4e38);
the exact value only enters through order comparisons. -/
def floatMin : ℚ := -(2 ^ 128)

/-- CNode::expand (cnode.cpp lines 138-201): store metadata; default the
legal actions to 0..policy_logits.size() when empty; softmax the legal
slice of the logits (numerically stabilised by subtracting the maximum)
and create one fresh child per legal action carrying the softmax weight
as prior.  fexp models the C exp function.  Children are modelled as the
freshly created table (expand is only ever invoked on unexpanded nodes:
fresh roots in prepare and traversal leaves in cbatch_backpropagate). -/
def expandNode (fexp : ℚ → ℚ) (to_play latentIdx batchIdx : ℤ)
    (valuePrefixArg : ℚ) (policy_logits : List ℚ) (t : CNode) : CNode :=
  let legals := if t.data.legal_actions = [] then List.range policy_logits.length
                else t.data.legal_actions
  let policy_max := legals.foldl (fun m a => max m (policy_logits.getD a 0)) floatMin
  let policy := fun a => fexp (policy_logits.getD a 0 - policy_max)
  let policy_sum := (legals.map policy).sum
  CNode.mk
    { t.data with
      to_play := to_play
      latentIdx := latentIdx
      batchIdx := batchIdx
      valuePrefix := valuePrefixArg
      legal_actions := legals }
    (legals.map (fun a => (a, newCNode (policy a / policy_sum) [])))

/-- CNode::add_exploration_noise (cnode.cpp lines 203-221): for the i-th
legal action a, the child at key a gets prior
prior * (1 - fraction) + noises[i] * fraction.  Modelled as a rewrite of
the children table (after expand every legal action has a child, which is
the only situation in which the C++ code runs without dereferencing a
null handle). -/
def add_exploration_noise (fraction : ℚ) (noises : List ℚ) (t : CNode) : CNode :=
  let pairs := t.data.legal_actions.zip noises
  CNode.mk t.data
    (t.children.map (fun kc =>
      match assocFind kc.1 pairs with
      | some noise =>
          (kc.1, CNode.mk { kc.2.data with
                            prior := kc.2.data.prior * (1 - fraction) + noise * fraction }
                          kc.2.children)
      | none => kc))

/-- Increment of the visit counter on a node (used by CRoots::prepare). -/
def bumpVisit (t : CNode) : CNode :=
  CNode.mk { t.data with visit_count := t.data.visit_count + 1 } t.children

/-- CRoots::prepare (cnode.cpp lines 451-469): for every root i, expand
with depth index 0 and batch index i, add exploration noise, and add one
visit. -/
def prepare (fexp : ℚ → ℚ) (root_noise_weight : ℚ) (noises : List (List ℚ))
    (valuePrefixs : List ℚ) (policies : List (List ℚ)) (to_play_batch : List ℤ)
    (roots : List CNode) : List CNode :=
  (List.range roots.length).map (fun i =>
    bumpVisit
      (add_exploration_noise root_noise_weight (noises.getD i [])
        (expandNode fexp (to_play_batch.getD i 0) 0 i (valuePrefixs.getD i 0)
          (policies.getD i []) (roots.getD i (newCNode 0 [])))))

/-- CRoots::prepare_no_noise (cnode.cpp lines 471-486). -/
def prepare_no_noise (fexp : ℚ → ℚ) (valuePrefixs : List ℚ)
    (policies : List (List ℚ)) (to_play_batch : List ℤ)
    (roots : List CNode) : List CNode :=
  (List.range roots.length).map (fun i =>
    bumpVisit
      (expandNode fexp (to_play_batch.getD i 0) 0 i (valuePrefixs.getD i 0)
        (policies.getD i []) (roots.getD i (newCNode 0 []))))

/-- CNode::get_children_distribution (cnode.cpp lines 316-334): visit
counts of the children indexed by legal_actions; empty when unexpanded;
none models the null dereference on a missing child. -/
def get_children_distribution (t : CNode) : Option (List ℕ) :=
  if t.expanded then
    optMapList (fun a => (get_child t a).map (fun c => c.data.visit_count)) t.data.legal_actions
  else some []

/-! ## compute_mean_q (cnode.cpp lines 223-265) -/

/-- One-step Q of a child as computed inside CNode::compute_mean_q:
true_reward (with the parent's is_reset override) plus discounted child
value.  pvp is the surrounding node's value_prefix, isReset its is_reset. -/
def qsaOf (discount_factor pvp : ℚ) (isReset : ℤ) (c : CNode) : ℚ :=
  (if isReset = 1 then c.data.valuePrefix else c.data.valuePrefix - pvp) +
    discount_factor * c.value

/-- Keys looked up by compute_mean_q, in loop order: the loop at
cnode.cpp lines 236-252 runs i over 0..NUM_ACTION_HEADS and a over
legal_actions, looking up a + i * ACTIONS_PER_PLAYER. -/
def childLookupKeys (H A : ℕ) (t : CNode) : List ℕ :=
  (List.range H).flatMap (fun i => t.data.legal_actions.map (fun a => a + i * A))

/-- Accumulation loop of CNode::compute_mean_q (cnode.cpp lines 236-253):
for each looked-up child that has been visited, add its qsa and count it.
none models the null-pointer dereference on child->visit_count when the
lookup misses. -/
def meanQLoop (discount_factor pvp : ℚ) (ir : ℤ) (t : CNode) :
    List ℕ → ℚ × ℕ → Option (ℚ × ℕ)
  | [], s => some s
  | k :: ks, s =>
      match get_child t k with
      | none => none
      | some c => meanQLoop discount_factor pvp ir t ks
          (if 0 < c.data.visit_count then
            (s.1 + qsaOf discount_factor pvp ir c, s.2 + 1) else s)

/-- Total unsigned q and total visits accumulated by compute_mean_q. -/
def meanQCore (H A : ℕ) (discount_factor : ℚ) (t : CNode) : Option (ℚ × ℕ) :=
  meanQLoop discount_factor t.data.valuePrefix t.data.is_reset t
    (childLookupKeys H A t) ((0 : ℚ), (0 : ℕ))

/-- CNode::compute_mean_q (cnode.cpp lines 223-265).  isRoot is the C++
int flag; the root branch divides the accumulated q by the visit total
only when isRoot is set and at least one child was visited, otherwise the
parent q contributes one pseudo-visit. -/
def compute_mean_q (H A : ℕ) (t : CNode) (isRoot : ℤ) (parent_q discount_factor : ℚ) :
    Option ℚ :=
  (meanQCore H A discount_factor t).map (fun s =>
    if isRoot ≠ 0 ∧ 0 < s.2 then s.1 / (s.2 : ℚ) else (parent_q + s.1) / ((s.2 : ℚ) + 1))

/-- The qsa values of the visited children among the compute_mean_q
lookups, in loop order; none when some lookup misses. -/
def visitedQsas (H A : ℕ) (discount_factor : ℚ) (t : CNode) : Option (List ℚ) :=
  (optMapList (get_child t) (childLookupKeys H A t)).map (fun cs =>
    (cs.filter (fun c => decide (0 < c.data.visit_count))).map
      (qsaOf discount_factor t.data.valuePrefix t.data.is_reset))

/-! ## MinMaxStats (modelled from the spec; common_lib/utils is not under
src/) -/

/-- Modelled from the spec: tools::CMinMaxStats from the missing
common_lib/utils sources, as described in spec section 4.2: running
minimum and maximum of submitted q values. -/
structure CMinMaxStats where
  minimum : ℚ
  maximum : ℚ
deriving Repr, DecidableEq

/-- Modelled from the spec: update(q) extends the running extrema. -/
def CMinMaxStats.update (s : CMinMaxStats) (q : ℚ) : CMinMaxStats :=
  { minimum := min s.minimum q, maximum := max s.maximum q }

/-- Modelled from the spec: normalize(q) = (q - min)/(max - min) when
max > min, else q unchanged. -/
def CMinMaxStats.normalize (s : CMinMaxStats) (q : ℚ) : ℚ :=
  if s.minimum < s.maximum then (q - s.minimum) / (s.maximum - s.minimum) else q

/-- Fold a list of submitted q values through CMinMaxStats.update. -/
def applyUpdates (s : CMinMaxStats) (qs : List ℚ) : CMinMaxStats :=
  qs.foldl CMinMaxStats.update s

/-! ## cucb_score (cnode.cpp lines 780-838) -/

/-- cucb_score (cnode.cpp lines 780-838).  flog and fsqrt model the C log
and sqrt primitives.  The value score of an unvisited child is the parent
mean q; for a visited child it is the (is_reset aware) true reward plus
the discounted child value, negated for the two-player case; players
outside {1,2} leave the initial 0.  The value score is min-max normalised
and clamped to [0,1]. -/
def cucb_score (flog fsqrt : ℚ → ℚ) (child : CNode) (mms : CMinMaxStats)
    (parent_mean_q : ℚ) (is_reset : ℤ) (total_children_visit_counts : ℚ)
    (parentVp pb_c_base pb_c_init discount_factor : ℚ) (players : ℤ) : ℚ :=
  let pb_c0 := flog ((total_children_visit_counts + pb_c_base + 1) / pb_c_base) + pb_c_init
  let pb_c := pb_c0 * (fsqrt total_children_visit_counts / ((child.data.visit_count : ℚ) + 1))
  let prior_score := pb_c * child.data.prior
  let value_score :=
    if child.data.visit_count = 0 then parent_mean_q
    else
      let true_reward := if is_reset = 1 then child.data.valuePrefix
                         else child.data.valuePrefix - parentVp
      if players = 1 then true_reward + discount_factor * child.value
      else if players = 2 then true_reward + discount_factor * (-child.value)
      else 0
  let vs1 := mms.normalize value_score
  let vs2 := if vs1 < 0 then 0 else if 1 < vs1 then 1 else vs1
  prior_score + vs2

/-! ## cselect_child (cnode.cpp lines 729-778) -/

/-- Tie margin epsilon = 0.000001 (cnode.cpp line 746). -/
def epsilonTie : ℚ := 1 / 1000000

/-- One step of the running-max candidate scan (cnode.cpp lines 749-764):
a strictly larger score resets the candidate list; a score within eps of
the running maximum is appended; anything lower is dropped. -/
def selectStep (eps : ℚ) (s : ℚ × List ℕ) (x : ℕ × ℚ) : ℚ × List ℕ :=
  if s.1 < x.2 then (x.2, [x.1])
  else if s.1 - eps ≤ x.2 then (s.1, s.2 ++ [x.1])
  else s

/-- The legal actions of a node paired with the cucb score of the child
each one leads to (the loop body of cselect_child); none models the null
dereference when a legal action has no child. -/
def scoredChildren (flog fsqrt : ℚ → ℚ) (t : CNode) (mms : CMinMaxStats)
    (pb_c_base pb_c_init discount_factor mean_q : ℚ) (players : ℤ) :
    Option (List (ℕ × ℚ)) :=
  optMapList (fun a =>
    (get_child t a).map (fun c =>
      (a, cucb_score flog fsqrt c mms mean_q t.data.is_reset
            ((t.data.visit_count : ℚ) - 1) t.data.valuePrefix
            pb_c_base pb_c_init discount_factor players)))
    t.data.legal_actions

/-- Final running maximum and candidate list of cselect_child, starting
from (FLOAT_MIN, empty). -/
def cselect_candidates (flog fsqrt : ℚ → ℚ) (t : CNode) (mms : CMinMaxStats)
    (pb_c_base pb_c_init discount_factor mean_q : ℚ) (players : ℤ) :
    Option (ℚ × List ℕ) :=
  (scoredChildren flog fsqrt t mms pb_c_base pb_c_init discount_factor mean_q players).map
    (fun scored => scored.foldl (selectStep epsilonTie) (floatMin, []))

/-- One draw from the modelled PRNG stream. -/
def randDraw : List ℕ → ℕ × List ℕ
  | [] => (0, [])
  | r :: rs => (r, rs)

/-- cselect_child (cnode.cpp lines 729-778): scan the legal children,
then return an all-(-1) vector of length NUM_ACTION_HEADS whose slot 0
holds the candidate at index rand() % size; when the candidate list is
empty the untouched all-(-1) vector is returned and no draw is consumed.
The third component reports the candidate count (used to state tie-break
properties). -/
def cselect_child (flog fsqrt : ℚ → ℚ) (t : CNode) (mms : CMinMaxStats)
    (pb_c_base pb_c_init discount_factor mean_q : ℚ) (players : ℤ)
    (H : ℕ) (rng : List ℕ) : Option (List ℤ × List ℕ × ℕ) :=
  (cselect_candidates flog fsqrt t mms pb_c_base pb_c_init discount_factor mean_q players).map
    (fun mc =>
      let lst := mc.2
      if 0 < lst.length then
        let r := (randDraw rng).1
        ((List.replicate H (-1 : ℤ)).set 0 ((lst.getD (r % lst.length) 0 : ℕ) : ℤ),
          (randDraw rng).2, lst.length)
      else (List.replicate H (-1 : ℤ), rng, 0))

/-! ## cbackpropagate (cnode.cpp lines 608-701) -/

/-- Parent observations used at index i of the backprop walk: the pair
(parent value_prefix, parent is_reset), which is (0, 0) at the root and
the data of path[i-1] elsewhere (cnode.cpp lines 632-639 and 671-678).
Backprop never writes these fields, so the pre-pass values are the ones
read. -/
def bpParentInfos (path : List CNode) : List (ℚ × ℤ) :=
  (0, 0) :: path.dropLast.map (fun n => (n.data.valuePrefix, n.data.is_reset))

/-- One step of cbackpropagate at a node (leafward first).  Updates
visit_count and value_sum (sign-flipped against bootstrap_value in
self-play mode when to_play differs), computes the value submitted to
MinMaxStats.update from the un-overridden true_reward and the updated
node value, then applies the is_reset override only to the bootstrap
recurrence (cnode.cpp lines 626-651 and 656-699). -/
def backstep (discount_factor : ℚ) (to_play : ℤ) (bv : ℚ) (x : CNode × ℚ × ℤ) :
    CNode × ℚ × ℚ :=
  let n := x.1
  let pvp := x.2.1
  let ir := x.2.2
  let contrib := if to_play = -1 then bv
                 else if n.data.to_play = to_play then bv else -bv
  let n' := CNode.mk { n.data with visit_count := n.data.visit_count + 1,
                                   value_sum := n.data.value_sum + contrib } n.children
  let true_reward := n.data.valuePrefix - pvp
  let submitted := true_reward + discount_factor * n'.value
  let tr2 := if ir = 1 then n.data.valuePrefix else true_reward
  let bv' := if to_play = -1 then tr2 + discount_factor * bv
             else if n.data.to_play = to_play then -tr2 + discount_factor * bv
             else tr2 + discount_factor * bv
  (n', submitted, bv')

/-- Leaf-to-root recursion of cbackpropagate over the reversed path
(paired with the parent observations).  Returns the updated nodes and the
values submitted to MinMaxStats.update, leafmost first. -/
def backpropRev (discount_factor : ℚ) (to_play : ℤ) :
    ℚ → List (CNode × ℚ × ℤ) → List CNode × List ℚ
  | _, [] => ([], [])
  | bv, x :: rest =>
      let step := backstep discount_factor to_play bv x
      let tail := backpropRev discount_factor to_play step.2.2 rest
      (step.1 :: tail.1, step.2.1 :: tail.2)

/-- cbackpropagate (cnode.cpp lines 608-701): walk the search path from
leaf to root with bootstrap value, updating every node and submitting one
q value per node to the per-root MinMaxStats.  The result lists are in
path (root..leaf) order: updated nodes and submitted q values.  The C++
asserts to_play in {-1, 1, 2}; the single-player branch is to_play = -1,
the self-play branch anything else. -/
def cbackpropagate (path : List CNode) (to_play : ℤ) (value discount_factor : ℚ) :
    List CNode × List ℚ :=
  let rev := backpropRev discount_factor to_play value
    ((path.zip (bpParentInfos path)).reverse)
  (rev.1.reverse, rev.2.reverse)

/-! ## Player inference of cbatch_traverse (cnode.cpp lines 883-888) -/

/-- Player-count inference at the head of cbatch_traverse (cnode.cpp
lines 883-888): players = 1 when the largest element of
virtual_to_play_batch is -1, else players = 2; none models the undefined
max_element of an empty batch. -/
def infer_players (batch : List ℤ) : Option ℤ :=
  match batch with
  | [] => none
  | x :: xs => some (if xs.foldl max x = -1 then 1 else 2)

/-- Spec-side reading of the player inference (claim C3): any -1 in the
batch means single player. -/
def players_spec (batch : List ℤ) : ℤ :=
  if (-1 : ℤ) ∈ batch then 1 else 2

/-! ## Claim-side auxiliary definitions and example inputs -/

/-- Claim-side sum encoding of claim C6: the sum over slots i of
(a_i + i * ACTIONS_PER_PLAYER). -/
def xhotKeySum (A : ℕ) (actions : List ℤ) : ℕ :=
  (actions.enum.map (fun p => p.2.toNat + p.1 * A)).sum

/-- Example root for claim C1: visit count 1 with two unvisited children
of prior 1/2 each (the state of any prepared root before the first
simulation). -/
def c1Root : CNode :=
  CNode.mk { prior := 0, legal_actions := [0, 1], is_reset := 0, visit_count := 1,
             value_sum := 0, best_action := [-1, -1, -1, -1], to_play := 0,
             valuePrefix := 0, parentValuePrefix := 0, latentIdx := -1, batchIdx := -1 }
    [(0, newCNode (1/2) []), (1, newCNode (1/2) [])]

/-- Example root with one visited child (value prefix 2, value 3): its
qsa under discount 1/2 is 2 + 3/2 = 7/2. -/
def c1RootV : CNode :=
  CNode.mk { prior := 0, legal_actions := [0, 1], is_reset := 0, visit_count := 2,
             value_sum := 1, best_action := [-1, -1, -1, -1], to_play := 0,
             valuePrefix := 0, parentValuePrefix := 0, latentIdx := -1, batchIdx := -1 }
    [(0, CNode.mk { prior := 1/2, legal_actions := [], is_reset := 0, visit_count := 1,
                    value_sum := 3, best_action := [-1, -1, -1, -1], to_play := 0,
                    valuePrefix := 2, parentValuePrefix := 0, latentIdx := -1,
                    batchIdx := -1 } []),
     (1, newCNode (1/2) [])]

/-- The claim C7 invariant: an unvisited node has value sum 0 and value 0. -/
def unvisitedZero (t : CNode) : Prop :=
  t.data.visit_count = 0 → t.data.value_sum = 0 ∧ t.value = 0

/-- Example backprop parent for claim C4: is_reset set, value prefix 5,
already visited once. -/
def c4Parent : CNode :=
  CNode.mk { prior := 0, legal_actions := [0], is_reset := 1, visit_count := 1,
             value_sum := 0, best_action := [-1, -1, -1, -1], to_play := 0,
             valuePrefix := 5, parentValuePrefix := 0, latentIdx := -1, batchIdx := -1 }
    []

/-- Example backprop leaf for claim C4: value prefix 3, unvisited. -/
def c4Leaf : CNode :=
  CNode.mk { prior := 1, legal_actions := [], is_reset := 0, visit_count := 0,
             value_sum := 0, best_action := [-1, -1, -1, -1], to_play := 0,
             valuePrefix := 3, parentValuePrefix := 0, latentIdx := -1, batchIdx := -1 }
    []

/-- Example node for claim C5: visit count 2, two unvisited children with
priors 1/3 and 1/3 + 1e-7.  With flog = fsqrt = id, pb_c_base 1 and
pb_c_init 0 the PUCT scores are 1 and 1 + 3e-7: closer than the 1e-6 tie
margin. -/
def c5Node : CNode :=
  CNode.mk { prior := 0, legal_actions := [0, 1], is_reset := 0, visit_count := 2,
             value_sum := 0, best_action := [-1, -1, -1, -1], to_play := 0,
             valuePrefix := 0, parentValuePrefix := 0, latentIdx := -1, batchIdx := -1 }
    [(0, newCNode (1/3) []), (1, newCNode (1/3 + 1/10000000) [])]

/-- Example MinMaxStats with extrema 0 and 1 (normalize is the
identity on [0, 1] inputs). -/
def c5Stats : CMinMaxStats := ⟨0, 1⟩

/-- Example expanded node for claim C9: a fresh node with empty legal
actions expanded on a two-logit policy, giving legal actions [0, 1] and
children keyed 0 and 1. -/
def c9Node : CNode :=
  expandNode (fun _ => 1) 0 0 0 0 [0, 0] (newCNode 0 [])

/-! ## cbatch_traverse (cnode.cpp lines 840-941) and the search round -/

/-- Per-element output of cbatch_traverse: the (best_action mutated)
tree, the encoded keys of the descent (the search path below the root),
the last selected action vector, search_lens[i], the final virtual
to-play value, and the candidate-list size of every cselect_child call
(recorded to state tie-break properties; the C++ computes it on the way
to rand() % size). -/
structure TravResult where
  tree : CNode
  pathKeys : List ℕ
  lastActions : List ℤ
  searchLen : ℕ
  vtpOut : ℤ
  tieSizes : List ℕ

/-- In-place replacement of the child stored under a key (mutation of a
child object through the pointer held in the children table). -/
def replaceChild (key : ℕ) (c : CNode) (ch : List (ℕ × CNode)) : List (ℕ × CNode) :=
  ch.map (fun kc => if kc.1 = key then (kc.1, c) else kc)

/-- The while loop of cbatch_traverse for one batch element (cnode.cpp
lines 890-930): while the node is expanded, compute mean_q (is_root only
on the first step), select a child by PUCT tie-break, flip the virtual
player in two-player mode, record best_action, descend.  fuel bounds the
loop (none on exhaustion; any fuel at least the tree height suffices);
none also models the null dereference when a computation fails.  Returns
the result, the final parent_q (live across batch elements in the C++)
and the remaining PRNG stream. -/
def traverseLoop (flog fsqrt : ℚ → ℚ) (H A : ℕ) (base init γ : ℚ)
    (mms : CMinMaxStats) (players : ℤ) :
    ℕ → CNode → ℤ → ℤ → ℚ → List ℕ → Option (TravResult × ℚ × List ℕ)
  | fuel, t, isRoot, vtp, pq, rng =>
      if t.expanded = true then
        match fuel with
        | 0 => none
        | fuel2 + 1 =>
            match compute_mean_q H A t isRoot pq γ with
            | none => none
            | some mq =>
                match cselect_child flog fsqrt t mms base init γ mq players H rng with
                | none => none
                | some (actions, rng2, k) =>
                    let vtp2 := if 1 < players then (if vtp = 1 then 2 else 1) else vtp
                    let t2 := CNode.mk { t.data with best_action := actions } t.children
                    match get_child_xhot H A t2 actions with
                    | none => none
                    | some child =>
                        match traverseLoop flog fsqrt H A base init γ mms players
                            fuel2 child 0 vtp2 mq rng2 with
                        | none => none
                        | some (res, pqOut, rngOut) =>
                            some ({ tree := CNode.mk t2.data
                                      (replaceChild (encode_action H A actions) res.tree
                                        t2.children),
                                    pathKeys := encode_action H A actions :: res.pathKeys,
                                    lastActions := if res.searchLen = 0 then actions
                                                   else res.lastActions,
                                    searchLen := res.searchLen + 1,
                                    vtpOut := res.vtpOut,
                                    tieSizes := k :: res.tieSizes },
                                  pqOut, rngOut)
      else
        some ({ tree := t, pathKeys := [], lastActions := [], searchLen := 0,
                vtpOut := vtp, tieSizes := [] }, pq, rng)

/-- The outer batch loop of cbatch_traverse: elements in order, sharing
parent_q and the PRNG stream; each element must make at least one step
(the C++ reads the second-to-last path entry, undefined on an unexpanded
root). -/
def traverseBatchLoop (flog fsqrt : ℚ → ℚ) (H A : ℕ) (base init γ : ℚ)
    (players : ℤ) (fuel : ℕ) :
    List (CNode × CMinMaxStats × ℤ) → ℚ → List ℕ →
    Option (List TravResult × ℚ × List ℕ)
  | [], pq, rng => some ([], pq, rng)
  | (t, s, v) :: rest, pq, rng =>
      match traverseLoop flog fsqrt H A base init γ s players fuel t 1 v pq rng with
      | none => none
      | some (res, pq2, rng2) =>
          if res.searchLen = 0 then none
          else
            match traverseBatchLoop flog fsqrt H A base init γ players fuel
                rest pq2 rng2 with
            | none => none
            | some (ress, pq3, rng3) => some (res :: ress, pq3, rng3)

/-- cbatch_traverse (cnode.cpp lines 840-941): infer the player count
from the largest virtual to-play entry, then run the per-element
traversals in order with parent_q starting at 0 and a PRNG seeded once
(modelled as the given stream).  none models the undefined max_element of
an empty batch or a batch-size mismatch. -/
def cbatch_traverse (flog fsqrt : ℚ → ℚ) (H A : ℕ) (base init γ : ℚ) (fuel : ℕ)
    (roots : List CNode) (statsList : List CMinMaxStats) (vtps : List ℤ)
    (rng : List ℕ) : Option (List TravResult × ℚ × List ℕ) :=
  match vtps with
  | [] => none
  | v :: vs =>
      let players : ℤ := if vs.foldl max v = -1 then 1 else 2
      if roots.length = statsList.length ∧ roots.length = vtps.length then
        traverseBatchLoop flog fsqrt H A base init γ players fuel
          (roots.zip (statsList.zip vtps)) 0 rng
      else none

/-- The nodes of a search path, root first, recovered from the descent
keys (the C++ stores the same nodes as raw pointers in search_paths). -/
def extractPath : CNode → List ℕ → Option (List CNode)
  | t, [] => some [t]
  | t, k :: ks =>
      match get_child t k with
      | none => none
      | some c => (extractPath c ks).map (fun p => t :: p)

/-- Write updated path nodes back along the descent keys: the leaf
replaces the deepest node; every other updated node keeps its own
children except that the path child is replaced by the rebuilt subtree
(pointer mutation in the C++). -/
def rebuildPath : List ℕ → List CNode → Option CNode
  | [], [leaf] => some leaf
  | k :: ks, n :: rest =>
      (rebuildPath ks rest).map (fun c => CNode.mk n.data (replaceChild k c n.children))
  | _, _ => none

/-- Overwrite of the is_reset flag on a node (cnode.cpp line 723:
results.nodes[i]->is_reset = is_reset_list[i]). -/
def resetFlag (isReset : ℤ) (t : CNode) : CNode :=
  CNode.mk { t.data with is_reset := isReset } t.children

/-- One element of cbatch_backpropagate (cnode.cpp lines 719-726):
expand the leaf with batch index i, set its is_reset flag, run
cbackpropagate along the search path, write the updated nodes back into
the tree and fold the submitted values into the element's MinMaxStats. -/
def backpropElem (fexp : ℚ → ℚ) (latentIdx : ℤ) (γ : ℚ) (i : ℕ)
    (tree : CNode) (keys : List ℕ) (stats : CMinMaxStats)
    (vp value : ℚ) (policy : List ℚ) (isReset tp : ℤ) :
    Option (CNode × CMinMaxStats) :=
  match extractPath tree keys with
  | none => none
  | some path =>
      match path.getLast? with
      | none => none
      | some leaf =>
          let leaf3 := resetFlag isReset (expandNode fexp tp latentIdx i vp policy leaf)
          let bp := cbackpropagate (path.dropLast ++ [leaf3]) tp value γ
          match rebuildPath keys bp.1 with
          | none => none
          | some tree2 => some (tree2, applyUpdates stats bp.2)

/-- cbatch_backpropagate (cnode.cpp lines 703-727): loop the elements in
order; element i reads the i-th entry of every input array. -/
def backpropLoop (fexp : ℚ → ℚ) (latentIdx : ℤ) (γ : ℚ)
    (statsList : List CMinMaxStats) (valuePrefixs values : List ℚ)
    (policies : List (List ℚ)) (isResetList toPlays : List ℤ) :
    ℕ → List TravResult → Option (List (CNode × CMinMaxStats))
  | _, [] => some []
  | i, res :: rest =>
      match backpropElem fexp latentIdx γ i res.tree res.pathKeys
          (statsList.getD i ⟨0, 0⟩) (valuePrefixs.getD i 0) (values.getD i 0)
          (policies.getD i []) (isResetList.getD i 0) (toPlays.getD i 0) with
      | none => none
      | some out =>
          (backpropLoop fexp latentIdx γ statsList valuePrefixs values policies
            isResetList toPlays (i + 1) rest).map (fun outs => out :: outs)

/-- One search round per spec section 4.7: cbatch_traverse, then (after
the external inference, whose outputs are the given arrays)
cbatch_backpropagate.  Returns the per-element final tree and
MinMaxStats. -/
def searchRound (flog fsqrt fexp : ℚ → ℚ) (H A : ℕ) (base init γ : ℚ) (fuel : ℕ)
    (latentIdx : ℤ) (roots : List CNode) (statsList : List CMinMaxStats)
    (vtps : List ℤ) (valuePrefixs values : List ℚ) (policies : List (List ℚ))
    (isResetList toPlays : List ℤ) (rng : List ℕ) :
    Option (List (CNode × CMinMaxStats)) :=
  match cbatch_traverse flog fsqrt H A base init γ fuel roots statsList vtps rng with
  | none => none
  | some (ress, _, _) =>
      backpropLoop fexp latentIdx γ statsList valuePrefixs values policies
        isResetList toPlays 0 ress

mutual
/-- Erase the latent-state bookkeeping indices (current_latent_state_index
and batch_index) everywhere in a tree: the observational view of claim C2,
which compares visit counts, value sums, priors and structure. -/
def stripIdx : CNode → CNode
  | .mk d ch => .mk { d with latentIdx := 0, batchIdx := 0 } (stripIdxL ch)

/-- stripIdx mapped over a children table. -/
def stripIdxL : List (ℕ × CNode) → List (ℕ × CNode)
  | [] => []
  | (k, c) :: rest => (k, stripIdx c) :: stripIdxL rest
end

/-- The root-step mean-q of a tree is determined by its visited children
(at least one lookup is visited), so compute_mean_q with is_root set does
not read parent_q. -/
def rootMeanDetermined (H A : ℕ) (γ : ℚ) (t : CNode) : Prop :=
  ∃ tq tv, meanQCore H A γ t = some (tq, tv) ∧ 0 < tv

/-- Modelled from the spec: a freshly constructed CMinMaxStats has
minimum FLOAT_MAX and maximum FLOAT_MIN (no q submitted yet), so
normalize is the identity until the first update. -/
def freshStats : CMinMaxStats := ⟨2 ^ 128, floatMin⟩

/-- Children visit distribution of the i-th tree of a search-round
output (an observation used to compare round results). -/
def roundTreeDistribution (out : Option (List (CNode × CMinMaxStats))) (i : ℕ) :
    Option (List ℕ) :=
  match out with
  | none => none
  | some l => get_children_distribution (l.getD i (newCNode 0 [], ⟨0, 0⟩)).1

/-- Concrete traverse-output tree for the C2 witness: c1RootV with the
selected action vector [1] recorded as best_action. -/
def c2WTree : CNode :=
  CNode.mk { prior := 0, legal_actions := [0, 1], is_reset := 0, visit_count := 2,
             value_sum := 1, best_action := [1], to_play := 0, valuePrefix := 0,
             parentValuePrefix := 0, latentIdx := -1, batchIdx := -1 }
    [(0, CNode.mk { prior := 1/2, legal_actions := [], is_reset := 0, visit_count := 1,
                    value_sum := 3, best_action := [-1, -1, -1, -1], to_play := 0,
                    valuePrefix := 2, parentValuePrefix := 0, latentIdx := -1,
                    batchIdx := -1 } []),
     (1, newCNode (1/2) [])]

/-- Concrete per-element TravResult of the C2 witness batch: a one-step
descent to the unvisited child 1, with a singleton tie-set. -/
def c2WTrav : TravResult :=
  { tree := c2WTree, pathKeys := [1], lastActions := [1], searchLen := 1,
    vtpOut := -1, tieSizes := [1] }

/-- Concrete search-round output tree of the C2 witness: child 1 expanded
with batch index i and latent index 7, one backprop visit applied along
the path. -/
def c2WOut (i : ℤ) : CNode :=
  CNode.mk { prior := 0, legal_actions := [0, 1], is_reset := 0, visit_count := 3,
             value_sum := 1, best_action := [1], to_play := 0, valuePrefix := 0,
             parentValuePrefix := 0, latentIdx := -1, batchIdx := -1 }
    [(0, CNode.mk { prior := 1/2, legal_actions := [], is_reset := 0, visit_count := 1,
                    value_sum := 3, best_action := [-1, -1, -1, -1], to_play := 0,
                    valuePrefix := 2, parentValuePrefix := 0, latentIdx := -1,
                    batchIdx := -1 } []),
     (1, CNode.mk { prior := 1/2, legal_actions := [0, 1], is_reset := 0,
                    visit_count := 1, value_sum := 1/2,
                    best_action := [-1, -1, -1, -1], to_play := 0, valuePrefix := 1/4,
                    parentValuePrefix := 0, latentIdx := 7, batchIdx := i }
          [(0, newCNode (1/2) []), (1, newCNode (1/2) [])])]

/-! # Shared lemmas -/

theorem meanQLoop_eq_visited (γ pvp : ℚ) (ir : ℤ) (t : CNode) :
    ∀ (keys : List ℕ) (s : ℚ × ℕ),
      meanQLoop γ pvp ir t keys s =
      (optMapList (get_child t) keys).map (fun cs =>
        let l := (cs.filter (fun c => decide (0 < c.data.visit_count))).map (qsaOf γ pvp ir)
        (s.1 + l.sum, s.2 + l.length)) := by
  intro keys
  induction keys with
  | nil => intro s; simp [meanQLoop, optMapList]
  | cons k rest ih =>
      intro s
      rw [meanQLoop, optMapList]
      cases h : get_child t k with
      | none => simp
      | some c =>
          dsimp only
          rw [ih]
          cases hrest : optMapList (get_child t) rest with
          | none => simp
          | some cs =>
              by_cases hv : 0 < c.data.visit_count
              · simp only [if_pos hv, Option.map_some', List.filter_cons,
                  decide_eq_true_eq, hv, if_true, List.map_cons, List.sum_cons,
                  List.length_cons, Option.some.injEq, Prod.mk.injEq]
                constructor <;> ring
              · simp only [if_neg hv, Option.map_some', List.filter_cons,
                  decide_eq_true_eq, hv, if_false]

theorem meanQCore_eq_visitedQsas (H A : ℕ) (γ : ℚ) (t : CNode) :
    meanQCore H A γ t = (visitedQsas H A γ t).map (fun l => (l.sum, l.length)) := by
  rw [meanQCore, meanQLoop_eq_visited, visitedQsas]
  cases h : optMapList (get_child t) (childLookupKeys H A t) <;> simp

/-! # Claim C1 -/

/-- C1 (amended): with is_root set, compute_mean_q returns the arithmetic
mean of qsa = true_reward + discount * child.value() over the visited
children when at least one child has been visited; when no child has been
visited it returns parent_q (the parent pseudo-visit formula
(parent_q + 0) / 1), not 0. -/
theorem c1_compute_mean_q_root (H A : ℕ) (t : CNode) (pq γ : ℚ) (l : List ℚ)
    (h : visitedQsas H A γ t = some l) :
    compute_mean_q H A t 1 pq γ =
      some (if 0 < l.length then l.sum / (l.length : ℚ) else pq) := by
  rw [compute_mean_q, meanQCore_eq_visitedQsas, h]
  by_cases hl : 0 < l.length
  · simp [hl]
  · have : l = [] := List.length_eq_zero.mp (by omega)
    subst this
    norm_num

/-- C1 witness: the amended theorem evaluated at the example root with
one visited child of qsa 7/2 (and at parent_q 37, which is ignored). -/
theorem c1_witness :
    compute_mean_q 1 2 c1RootV 1 (37 : ℚ) (1/2) = some (7/2) := by
  have h : visitedQsas 1 2 (1/2) c1RootV = some [7/2] := by
    norm_num +decide [visitedQsas, childLookupKeys, c1RootV, get_child, assocFind,
      newCNode, optMapList, qsaOf, CNode.value, List.range_succ, List.filter_cons]
  have := c1_compute_mean_q_root 1 2 c1RootV 37 (1/2) [7/2] h
  simpa using this

/-- C1 counterexample: at a root with no visited children and
parent_q = 5 the code returns 5, while the claim demands 0. -/
theorem c1_counterexample :
    compute_mean_q 1 2 c1Root 1 (5 : ℚ) (1/2) = some 5 ∧
    visitedQsas 1 2 (1/2) c1Root = some [] ∧ (5 : ℚ) ≠ 0 := by
  refine ⟨?_, ?_, by norm_num⟩
  · norm_num +decide [compute_mean_q, meanQCore, meanQLoop, childLookupKeys, c1Root,
      get_child, assocFind, newCNode, qsaOf, CNode.value, List.range_succ]
  · norm_num +decide [visitedQsas, childLookupKeys, c1Root, get_child, assocFind,
      newCNode, optMapList, List.range_succ, List.filter_cons]

/-! # Claim C3 -/

theorem foldl_max_eq_neg_one (xs : List ℤ) :
    ∀ x : ℤ, -1 ≤ x → (∀ y ∈ xs, -1 ≤ y) →
      ((xs.foldl max x = -1) ↔ (x = -1 ∧ ∀ y ∈ xs, y = -1)) := by
  induction xs with
  | nil => intro x _ _; simp
  | cons y ys ih =>
      intro x hx hys
      have hy : -1 ≤ y := hys y (by simp)
      have hmax : -1 ≤ max x y := le_trans hx (le_max_left _ _)
      have hys2 : ∀ z ∈ ys, -1 ≤ z := fun z hz => hys z (by simp [hz])
      rw [List.foldl_cons, ih (max x y) hmax hys2]
      have hsplit : max x y = -1 ↔ (x = -1 ∧ y = -1) := by
        rw [max_def]; split <;> omega
      rw [hsplit]
      simp only [List.forall_mem_cons]
      tauto

/-- C3 (amended): cbatch_traverse infers players = 1 exactly when the
maximum of virtual_to_play_batch equals -1, which for batches valued in
{-1, 1, 2} holds exactly when every element is -1; a mixed batch
containing -1 beside a positive element yields players = 2, contrary to
the any-(-1) reading. -/
theorem c3_players_from_max (x : ℤ) (xs : List ℤ)
    (hvals : ∀ y ∈ x :: xs, y = -1 ∨ y = 1 ∨ y = 2) :
    infer_players (x :: xs) =
      some (if ∀ y ∈ x :: xs, y = -1 then 1 else 2) := by
  rw [infer_players]
  have hge : ∀ y ∈ x :: xs, -1 ≤ y := fun y hy => by
    rcases hvals y hy with rfl | rfl | rfl <;> norm_num
  have hx : (-1 : ℤ) ≤ x := hge x (by simp)
  have hxs : ∀ y ∈ xs, (-1 : ℤ) ≤ y := fun y hy => hge y (by simp [hy])
  have hiff := foldl_max_eq_neg_one xs x hx hxs
  by_cases hall : ∀ y ∈ x :: xs, y = -1
  · have : x = -1 ∧ ∀ y ∈ xs, y = -1 := by
      simp only [List.forall_mem_cons] at hall
      exact hall
    rw [if_pos (hiff.mpr this), if_pos hall]
  · have : ¬(x = -1 ∧ ∀ y ∈ xs, y = -1) := by
      intro hc
      exact hall (by simp only [List.forall_mem_cons]; exact hc)
    rw [if_neg (fun h => this (hiff.mp h)), if_neg hall]

/-- C3 witness: the amended theorem applied to the homogeneous
single-player batch [-1, -1]. -/
theorem c3_witness : infer_players [-1, -1] = some 1 := by
  have := c3_players_from_max (-1) [-1] (by intro y hy; fin_cases hy <;> norm_num)
  simpa using this

/-- C3 counterexample: the mixed batch [-1, 1] contains -1, so the claim
demands single-player semantics, but the code infers players = 2 from the
maximum. -/
theorem c3_counterexample :
    infer_players [-1, 1] = some 2 ∧ (-1 : ℤ) ∈ [(-1 : ℤ), 1] ∧
    players_spec [-1, 1] = 1 := by
  refine ⟨?_, by decide, by decide⟩
  decide

/-! # Claims C6 and C10: encode_action -/

theorem encode_fold_valid (A : ℕ) :
    ∀ (l : List ℤ) (n acc : ℕ), (∀ x ∈ l, 0 ≤ x ∧ x < (A : ℤ)) →
      acc + ((l.enumFrom n).map (fun p => p.2.toNat + p.1 * A)).sum < 2 ^ 64 →
      (l.enumFrom n).foldl
        (fun acc p =>
          if 0 ≤ p.2 ∧ p.2 < (A : ℤ) then (acc + (p.2.toNat + p.1 * A)) % 2 ^ 64 else acc)
        acc
      = acc + ((l.enumFrom n).map (fun p => p.2.toNat + p.1 * A)).sum := by
  intro l
  induction l with
  | nil => intro n acc _ _; simp
  | cons x xs ih =>
      intro n acc hall hbound
      rw [List.enumFrom_cons, List.map_cons, List.sum_cons] at hbound ⊢
      dsimp only at hbound ⊢
      rw [List.foldl_cons, if_pos (hall x (by simp))]
      dsimp only
      have h1 : acc + (x.toNat + n * A) < 2 ^ 64 := by omega
      rw [Nat.mod_eq_of_lt h1]
      rw [ih (n + 1) _ (fun y hy => hall y (by simp [hy])) (by omega)]
      omega

theorem encode_fold_skip (A : ℕ) :
    ∀ (l : List ℤ) (n acc : ℕ), (∀ x ∈ l, x < 0) →
      (l.enumFrom n).foldl
        (fun acc p =>
          if 0 ≤ p.2 ∧ p.2 < (A : ℤ) then (acc + (p.2.toNat + p.1 * A)) % 2 ^ 64 else acc)
        acc = acc := by
  intro l
  induction l with
  | nil => intro n acc _; simp
  | cons x xs ih =>
      intro n acc hall
      rw [List.enumFrom_cons, List.foldl_cons,
        if_neg (by
          intro hc
          exact absurd hc.1 (not_le.mpr (hall x (by simp))))]
      exact ih (n + 1) acc (fun y hy => hall y (by simp [hy]))

theorem sumTerms_bound (A : ℕ) :
    ∀ (l : List ℤ) (n : ℕ), (∀ x ∈ l, 0 ≤ x ∧ x < (A : ℤ)) →
      ((l.enumFrom n).map (fun p => p.2.toNat + p.1 * A)).sum ≤
        l.length * ((n + l.length) * A) := by
  intro l
  induction l with
  | nil => intro n _; simp
  | cons x xs ih =>
      intro n hall
      rw [List.enumFrom_cons, List.map_cons, List.sum_cons]
      have hx := hall x (by simp)
      have h1 : x.toNat < A := by omega
      have hterm : x.toNat + n * A ≤ (n + (xs.length + 1)) * A := by
        have hstep : x.toNat + n * A < (n + (xs.length + 1)) * A := by
          calc x.toNat + n * A < A + n * A := by omega
            _ = (n + 1) * A := by ring
            _ ≤ (n + (xs.length + 1)) * A := Nat.mul_le_mul_right _ (by omega)
        exact le_of_lt hstep
      have htail := ih (n + 1) (fun y hy => hall y (by simp [hy]))
      have hmono : xs.length * ((n + 1 + xs.length) * A) ≤
          xs.length * ((n + (xs.length + 1)) * A) := by
        exact Nat.mul_le_mul_left _ (Nat.mul_le_mul_right _ (by omega))
      calc x.toNat + n * A +
            ((xs.enumFrom (n + 1)).map (fun p => p.2.toNat + p.1 * A)).sum
          ≤ (n + (xs.length + 1)) * A + xs.length * ((n + (xs.length + 1)) * A) :=
            Nat.add_le_add hterm (le_trans htail hmono)
        _ = (xs.length + 1) * ((n + (xs.length + 1)) * A) := by ring
        _ = (x :: xs).length * ((n + (x :: xs).length) * A) := by
            simp [List.length_cons]

/-- C6: for an action vector of length NUM_ACTION_HEADS whose entries all
lie in [0, ACTIONS_PER_PLAYER), encode_action returns the sum over i of
(a_i + i * ACTIONS_PER_PLAYER) when that sum is below TOTAL_ACTIONS, and
the clamp TOTAL_ACTIONS - 1 otherwise.  (The overflow-freedom hypothesis
H * (H * A) < 2^64 bounds the uint64 accumulator; it holds for any
realistic head count and action count.) -/
theorem c6_encode_action_sum_clamp (H A : ℕ) (actions : List ℤ)
    (hlen : actions.length = H) (hH : 0 < H) (hA : 0 < A)
    (hrange : ∀ x ∈ actions, 0 ≤ x ∧ x < (A : ℤ))
    (hbig : H * (H * A) < 2 ^ 64) :
    encode_action H A actions =
      if xhotKeySum A actions < H * A then xhotKeySum A actions else H * A - 1 := by
  have htake : actions.take H = actions := by rw [← hlen, List.take_length]
  have hsum : xhotKeySum A actions =
      ((actions.enumFrom 0).map (fun p => p.2.toNat + p.1 * A)).sum := by
    rw [xhotKeySum, List.enum]
  have hbound : ((actions.enumFrom 0).map (fun p => p.2.toNat + p.1 * A)).sum <
      2 ^ 64 := by
    have := sumTerms_bound A actions 0 hrange
    rw [hlen] at this
    simp only [Nat.zero_add] at this
    omega
  have hHA : H * A < 2 ^ 64 := by
    have : H * A ≤ H * (H * A) := by
      calc H * A = 1 * (H * A) := by ring
        _ ≤ H * (H * A) := Nat.mul_le_mul_right _ hH
    omega
  rw [encode_action, htake, List.enum]
  rw [encode_fold_valid A actions 0 0 hrange (by omega)]
  rw [Nat.zero_add, Nat.mod_eq_of_lt hHA, hsum]
  have hpos : 0 < H * A := Nat.mul_pos hH hA
  by_cases hlt : ((actions.enumFrom 0).map (fun p => p.2.toNat + p.1 * A)).sum < H * A
  · rw [if_pos hlt, if_pos hlt]
  · rw [if_neg hlt, if_neg hlt]
    omega

/-- C6 witness: H = 2, A = 3, actions (1, 2); the raw sum 1 + (2 + 3) = 6
reaches TOTAL_ACTIONS = 6 and is clamped to 5. -/
theorem c6_witness : encode_action 2 3 [1, 2] = 5 := by
  have h := c6_encode_action_sum_clamp 2 3 [1, 2] (by decide) (by decide) (by decide)
    (by intro x hx; fin_cases hx <;> constructor <;> decide) (by decide)
  rw [h]
  decide

/-- C10: an action vector whose first slot holds a with 0 <= a < A and
whose remaining slots are negative sentinels (the shape produced by
cselect_child) encodes to a, so the x-hot get_child overload agrees with
the scalar one: traversal descends to the child of the first-slot
action. -/
theorem c10_xhot_first_head (H A : ℕ) (t : CNode) (a : ℤ) (rest : List ℤ)
    (hlen : (a :: rest).length = H) (ha0 : 0 ≤ a) (haA : a < (A : ℤ))
    (hrest : ∀ x ∈ rest, x < 0) (hbig : H * A < 2 ^ 64) :
    get_child_xhot H A t (a :: rest) = get_child t a.toNat := by
  have hH : 0 < H := by
    rw [← hlen]; simp
  have hAle : A ≤ H * A := by
    calc A = 1 * A := by ring
      _ ≤ H * A := Nat.mul_le_mul_right _ hH
  have hkey : encode_action H A (a :: rest) = a.toNat := by
    have htake : (a :: rest).take H = a :: rest := by rw [← hlen, List.take_length]
    rw [encode_action, htake, List.enum, List.enumFrom_cons, List.foldl_cons]
    dsimp only
    simp only [Nat.zero_add, Nat.zero_mul, Nat.add_zero]
    rw [Nat.mod_eq_of_lt (show a.toNat < 2 ^ 64 by omega)]
    rw [if_pos (show (0 : ℤ) ≤ a ∧ a < (A : ℤ) from And.intro ha0 haA)]
    rw [encode_fold_skip A rest 1 a.toNat hrest]
    rw [Nat.mod_eq_of_lt hbig]
    rw [if_pos (by omega)]
  rw [get_child_xhot, if_neg (by simp [hlen]), hkey]

/-- C10 witness: H = 3, A = 4, vector (2, -1, -1) encodes to 2 and both
overloads return the same (absent) child of a fresh node. -/
theorem c10_witness : get_child_xhot 3 4 (newCNode 1 []) [2, -1, -1] =
    get_child (newCNode 1 []) 2 := by
  exact c10_xhot_first_head 3 4 (newCNode 1 []) 2 [-1, -1] (by decide) (by decide)
    (by decide) (by intro x hx; fin_cases hx <;> decide) (by decide)

/-! # Claim C4: values submitted to MinMaxStats during backprop -/

theorem backpropRev_length (γ : ℚ) (tp : ℤ) :
    ∀ (l : List (CNode × ℚ × ℤ)) (bv : ℚ),
      (backpropRev γ tp bv l).1.length = l.length := by
  intro l
  induction l with
  | nil => intro bv; rfl
  | cons x rest ih =>
      intro bv
      rw [backpropRev]
      simp [ih]

theorem backpropRev_submitted (γ : ℚ) (tp : ℤ) :
    ∀ (l : List (CNode × ℚ × ℤ)) (bv : ℚ),
      (backpropRev γ tp bv l).2 =
        List.zipWith (fun n' x => x.1.data.valuePrefix - x.2.1 + γ * n'.value)
          (backpropRev γ tp bv l).1 l := by
  intro l
  induction l with
  | nil => intro bv; rfl
  | cons x rest ih =>
      intro bv
      rw [backpropRev]
      dsimp only
      rw [List.zipWith_cons_cons, ih]
      rfl

/-- C4 (amended): for every search path and every to_play (both the
single-player branch to_play = -1 and the self-play branch), the value
submitted to MinMaxStats.update at node i is
(node_i.value_prefix - parent_value_prefix_i) + discount * node_i.value()
computed with the un-overridden true_reward and the freshly updated node
value; the is_reset override is applied only afterwards, to the bootstrap
recurrence, so a parent with is_reset set does not change the submitted
value (contrary to the claim, which places the override before the
update). -/
theorem c4_minmax_update_unoverridden (path : List CNode) (tp : ℤ) (v γ : ℚ) :
    (cbackpropagate path tp v γ).2 =
      List.zipWith (fun n' x => x.1.data.valuePrefix - x.2.1 + γ * n'.value)
        (cbackpropagate path tp v γ).1 (path.zip (bpParentInfos path)) := by
  rw [cbackpropagate]
  dsimp only
  rw [backpropRev_submitted]
  rw [List.reverse_zipWith (by rw [backpropRev_length])]
  rw [List.reverse_reverse]

/-- C4 counterexample: on the two-node path (c4Parent, c4Leaf) with the
parent's is_reset set (parent value prefix 5, leaf value prefix 3,
discount 1/2, bootstrap value 0), the value submitted for the leaf is
(3 - 5) + (1/2) * 0 = -2, while the claim demands the overridden
3 + (1/2) * 0 = 3. -/
theorem c4_counterexample :
    (cbackpropagate [c4Parent, c4Leaf] (-1) 0 (1/2)).2 = [23/4, -2] ∧
    c4Parent.data.is_reset = 1 ∧
    c4Leaf.data.valuePrefix = 3 ∧
    ((cbackpropagate [c4Parent, c4Leaf] (-1) 0 (1/2)).1.getD 1 (newCNode 0 [])).value
      = 0 ∧
    (-2 : ℚ) ≠ 3 + (1/2) * 0 := by
  refine ⟨?_, by norm_num [c4Parent], by norm_num [c4Leaf], ?_, by norm_num⟩
  · norm_num [cbackpropagate, backpropRev, backstep, bpParentInfos, c4Parent, c4Leaf,
      CNode.value]
  · norm_num [cbackpropagate, backpropRev, backstep, bpParentInfos, c4Parent, c4Leaf,
      CNode.value]

/-! # Claim C7: visit_count = 0 implies value_sum = 0 and value 0 -/

theorem backpropRev_visited (γ : ℚ) (tp : ℤ) :
    ∀ (l : List (CNode × ℚ × ℤ)) (bv : ℚ) (n : CNode),
      n ∈ (backpropRev γ tp bv l).1 → 0 < n.data.visit_count := by
  intro l
  induction l with
  | nil => intro bv n h; simp [backpropRev] at h
  | cons x rest ih =>
      intro bv n h
      rw [backpropRev] at h
      rcases List.mem_cons.mp h with rfl | h2
      · simp [backstep]
      · exact ih _ n h2

/-- C7: the invariant visit_count = 0 implies value_sum = 0 and
value() = 0 holds for freshly constructed nodes and is preserved by every
operation: expand (for the node and all created children),
add_exploration_noise (node and children), prepare (every produced root
and its children, unconditionally), and cbackpropagate (every updated
node on the path, unconditionally, since each gains a visit). -/
theorem c7_unvisited_zero :
    (∀ (p : ℚ) (la : List ℕ), unvisitedZero (newCNode p la)) ∧
    (∀ (fexp : ℚ → ℚ) (tp li bi : ℤ) (vp : ℚ) (pol : List ℚ) (t : CNode),
      unvisitedZero t →
        unvisitedZero (expandNode fexp tp li bi vp pol t) ∧
        ∀ kc ∈ (expandNode fexp tp li bi vp pol t).children, unvisitedZero kc.2) ∧
    (∀ (frac : ℚ) (noises : List ℚ) (t : CNode),
      (unvisitedZero t → unvisitedZero (add_exploration_noise frac noises t)) ∧
      ((∀ kc ∈ t.children, unvisitedZero kc.2) →
        ∀ kc ∈ (add_exploration_noise frac noises t).children, unvisitedZero kc.2)) ∧
    (∀ (fexp : ℚ → ℚ) (w : ℚ) (noises : List (List ℚ)) (vps : List ℚ)
        (pols : List (List ℚ)) (tps : List ℤ) (roots : List CNode),
      ∀ r ∈ prepare fexp w noises vps pols tps roots,
        unvisitedZero r ∧ ∀ kc ∈ r.children, unvisitedZero kc.2) ∧
    (∀ (path : List CNode) (tp : ℤ) (v γ : ℚ),
      ∀ n ∈ (cbackpropagate path tp v γ).1, unvisitedZero n) := by
  have hval0 : ∀ (d : NodeData) (ch : List (ℕ × CNode)), d.visit_count = 0 →
      (CNode.mk d ch).value = 0 := by
    intro d ch h
    rw [CNode.value]
    simp [h]
  refine ⟨?_, ?_, ?_, ?_, ?_⟩
  · intro p la
    intro h
    refine ⟨rfl, hval0 _ _ rfl⟩
  · intro fexp tp li bi vp pol t hInv
    constructor
    · intro h
      rw [expandNode] at h ⊢
      dsimp only at h ⊢
      rcases hInv h with ⟨hsum, _⟩
      exact ⟨hsum, hval0 _ _ h⟩
    · intro kc hkc
      rw [expandNode] at hkc
      dsimp only at hkc
      rcases List.mem_map.mp hkc with ⟨a, _, rfl⟩
      intro h
      exact ⟨rfl, hval0 _ _ rfl⟩
  · intro frac noises t
    constructor
    · intro hInv h
      rw [add_exploration_noise] at h ⊢
      dsimp only at h ⊢
      rcases hInv h with ⟨hsum, _⟩
      exact ⟨hsum, hval0 _ _ h⟩
    · intro hch kc hkc
      rw [add_exploration_noise] at hkc
      dsimp only at hkc
      rcases List.mem_map.mp hkc with ⟨kc0, hkc0, rfl⟩
      cases hfind : assocFind kc0.1 (t.data.legal_actions.zip noises) with
      | none =>
          simp only [hfind]
          exact hch kc0 hkc0
      | some noise =>
          simp only [hfind]
          intro h
          rcases hch kc0 hkc0 h with ⟨hsum, _⟩
          exact ⟨hsum, hval0 _ _ h⟩
  · intro fexp w noises vps pols tps roots r hr
    rw [prepare] at hr
    rcases List.mem_map.mp hr with ⟨i, _, rfl⟩
    constructor
    · intro h
      rw [bumpVisit] at h
      simp at h
    · intro kc hkc
      rw [bumpVisit] at hkc
      simp only [CNode.children_mk] at hkc
      rw [add_exploration_noise] at hkc
      dsimp only at hkc
      rcases List.mem_map.mp hkc with ⟨kc0, hkc0, rfl⟩
      have hfresh : ∀ kc1 ∈ (expandNode fexp (tps.getD i 0) 0 i (vps.getD i 0)
          (pols.getD i []) (roots.getD i (newCNode 0 []))).children,
          kc1.2.data.visit_count = 0 ∧ kc1.2.data.value_sum = 0 := by
        intro kc1 hkc1
        rw [expandNode] at hkc1
        dsimp only at hkc1
        rcases List.mem_map.mp hkc1 with ⟨a, _, rfl⟩
        exact ⟨rfl, rfl⟩
      cases hfind : assocFind kc0.1 (((expandNode fexp (tps.getD i 0) 0 i (vps.getD i 0)
          (pols.getD i []) (roots.getD i (newCNode 0 []))).data.legal_actions).zip
          (noises.getD i [])) with
      | none =>
          simp only [hfind]
          intro h
          rcases hfresh kc0 hkc0 with ⟨_, hsum⟩
          refine ⟨hsum, ?_⟩
          rcases kc0 with ⟨k0, c0⟩
          cases c0 with
          | mk d0 ch0 => exact hval0 d0 ch0 h
      | some noise =>
          simp only [hfind]
          intro h
          rcases hfresh kc0 hkc0 with ⟨_, hsum⟩
          exact ⟨hsum, hval0 _ _ h⟩
  · intro path tp v γ n hn
    rw [cbackpropagate] at hn
    dsimp only at hn
    rw [List.mem_reverse] at hn
    have := backpropRev_visited γ tp _ v n hn
    intro h
    omega

/-- C7 witness: the invariant propagated through expand at a concrete
unvisited node. -/
theorem c7_witness :
    unvisitedZero (expandNode (fun _ => 1) 0 0 0 0 [0, 0] (newCNode 0 [])) := by
  exact (c7_unvisited_zero.2.1 (fun _ => 1) 0 0 0 0 [0, 0] (newCNode 0 [])
    (c7_unvisited_zero.1 0 [])).1

/-! # Claims C5 and C8: the tie-break scan of cselect_child -/

theorem foldl_max2_init_le :
    ∀ (xs : List (ℕ × ℚ)) (m : ℚ), m ≤ xs.foldl (fun m x => max m x.2) m := by
  intro xs
  induction xs with
  | nil => intro m; exact le_refl m
  | cons x rest ih =>
      intro m
      rw [List.foldl_cons]
      exact le_trans (le_max_left _ _) (ih _)

theorem foldl_max2_mem_le :
    ∀ (xs : List (ℕ × ℚ)) (m : ℚ), ∀ x ∈ xs, x.2 ≤ xs.foldl (fun m x => max m x.2) m := by
  intro xs
  induction xs with
  | nil => intro m x hx; simp at hx
  | cons y rest ih =>
      intro m x hx
      rw [List.foldl_cons]
      rcases List.mem_cons.mp hx with rfl | hx2
      · exact le_trans (le_max_right _ _) (foldl_max2_init_le rest _)
      · exact ih _ x hx2

theorem selectFold_fst (eps : ℚ) :
    ∀ (xs : List (ℕ × ℚ)) (m : ℚ) (l : List ℕ),
      (xs.foldl (selectStep eps) (m, l)).1 = xs.foldl (fun m x => max m x.2) m := by
  intro xs
  induction xs with
  | nil => intro m l; rfl
  | cons x rest ih =>
      intro m l
      rw [List.foldl_cons, List.foldl_cons]
      simp only [selectStep]
      by_cases h1 : m < x.2
      · rw [if_pos h1, ih, max_eq_right (le_of_lt h1)]
      · rw [if_neg h1]
        have hmax : max m x.2 = m := max_eq_left (not_lt.mp h1)
        by_cases h2 : m - eps ≤ x.2
        · rw [if_pos h2, ih, hmax]
        · rw [if_neg h2, ih, hmax]

theorem selectFold_sound (eps : ℚ) (heps : 0 ≤ eps) :
    ∀ (xs ys : List (ℕ × ℚ)) (m : ℚ) (l : List ℕ),
      (∀ a ∈ l, ∃ s, (a, s) ∈ ys ∧ m - eps ≤ s ∧ s ≤ m) →
      (∀ x ∈ xs, x ∈ ys) →
      ∀ a ∈ (xs.foldl (selectStep eps) (m, l)).2,
        ∃ s, (a, s) ∈ ys ∧
          (xs.foldl (selectStep eps) (m, l)).1 - eps ≤ s ∧
          s ≤ (xs.foldl (selectStep eps) (m, l)).1 := by
  intro xs
  induction xs with
  | nil => intro ys m l hl _ a ha; exact hl a ha
  | cons x rest ih =>
      intro ys m l hl hxs a ha
      rw [List.foldl_cons] at ha ⊢
      simp only [selectStep] at ha ⊢
      have hxy : (x.1, x.2) ∈ ys := by
        rw [Prod.mk.eta]
        exact hxs x (by simp)
      by_cases h1 : m < x.2
      · rw [if_pos h1] at ha ⊢
        refine ih ys x.2 [x.1] ?_ (fun z hz => hxs z (by simp [hz])) a ha
        intro b hb
        rcases List.mem_singleton.mp hb with rfl
        exact ⟨x.2, hxy, by linarith, le_refl _⟩
      · rw [if_neg h1] at ha ⊢
        by_cases h2 : m - eps ≤ x.2
        · rw [if_pos h2] at ha ⊢
          refine ih ys m (l ++ [x.1]) ?_ (fun z hz => hxs z (by simp [hz])) a ha
          intro b hb
          rcases List.mem_append.mp hb with hb1 | hb2
          · exact hl b hb1
          · rcases List.mem_singleton.mp hb2 with rfl
            exact ⟨x.2, hxy, h2, not_lt.mp h1⟩
        · rw [if_neg h2] at ha ⊢
          exact ih ys m l hl (fun z hz => hxs z (by simp [hz])) a ha

theorem selectFold_ne_nil (eps : ℚ) :
    ∀ (xs : List (ℕ × ℚ)) (m : ℚ) (l : List ℕ), l ≠ [] →
      (xs.foldl (selectStep eps) (m, l)).2 ≠ [] := by
  intro xs
  induction xs with
  | nil => intro m l h; exact h
  | cons x rest ih =>
      intro m l h
      rw [List.foldl_cons]
      simp only [selectStep]
      by_cases h1 : m < x.2
      · rw [if_pos h1]
        exact ih _ _ (by simp)
      · rw [if_neg h1]
        by_cases h2 : m - eps ≤ x.2
        · rw [if_pos h2]
          exact ih _ _ (by simp [h])
        · rw [if_neg h2]
          exact ih _ _ h

theorem selectFold_start_ne_nil (eps : ℚ) (x : ℕ × ℚ) (rest : List (ℕ × ℚ)) (m : ℚ)
    (h : m - eps ≤ x.2) :
    ((x :: rest).foldl (selectStep eps) (m, [])).2 ≠ [] := by
  rw [List.foldl_cons]
  simp only [selectStep]
  by_cases h1 : m < x.2
  · rw [if_pos h1]
    exact selectFold_ne_nil eps rest _ _ (by simp)
  · rw [if_neg h1, if_pos h]
    exact selectFold_ne_nil eps rest _ _ (by simp)

theorem scored_fst (t : CNode) (h : ℕ → CNode → ℚ) :
    ∀ (legals : List ℕ) (scored : List (ℕ × ℚ)),
      optMapList (fun a => (get_child t a).map (fun c => (a, h a c))) legals
        = some scored →
      scored.map Prod.fst = legals := by
  intro legals
  induction legals with
  | nil =>
      intro scored hsc
      rw [optMapList] at hsc
      cases hsc
      rfl
  | cons a rest ih =>
      intro scored hsc
      rw [optMapList] at hsc
      cases hget : get_child t a with
      | none => rw [hget] at hsc; cases hsc
      | some c =>
          rw [hget] at hsc
          simp only [Option.map_some'] at hsc
          cases hrest : optMapList (fun a => (get_child t a).map (fun c => (a, h a c)))
              rest with
          | none => rw [hrest] at hsc; cases hsc
          | some ys =>
              rw [hrest] at hsc
              cases hsc
              rw [List.map_cons, ih ys hrest]

theorem getD_mem_of_lt {α : Type} :
    ∀ (l : List α) (n : ℕ) (d : α), n < l.length → l.getD n d ∈ l := by
  intro l
  induction l with
  | nil => intro n d h; simp at h
  | cons x rest ih =>
      intro n d h
      cases n with
      | zero => simp
      | succ n2 =>
          simp only [List.getD_cons_succ]
          exact List.mem_cons.mpr (Or.inr (ih n2 d (by simpa using h)))

/-- C5 (amended): cselect_child picks, by the index rand() mod candidate
count, from a non-empty candidate list each of whose PUCT scores lies
within 1e-6 of the final maximum score over all legal children; however
the list is only the suffix of within-margin children collected since the
last strict improvement of the running maximum, so a child scored before
the final maximum appeared may be excluded even when its score is within
1e-6 of that maximum (the claimed exactly-the-margin-set behaviour fails;
see the counterexample). -/
theorem c5_tie_break (flog fsqrt : ℚ → ℚ) (t : CNode) (mms : CMinMaxStats)
    (base init γ mq : ℚ) (players : ℤ) (H : ℕ) (rng : List ℕ)
    (scored : List (ℕ × ℚ)) (M : ℚ) (lst : List ℕ)
    (hsc : scoredChildren flog fsqrt t mms base init γ mq players = some scored)
    (hne : scored ≠ [])
    (hfin : ∀ x ∈ scored, floatMin ≤ x.2)
    (hcand : cselect_candidates flog fsqrt t mms base init γ mq players
      = some (M, lst)) :
    lst ≠ [] ∧
    (∀ a ∈ lst, ∃ s, (a, s) ∈ scored ∧ M - epsilonTie ≤ s ∧ s ≤ M) ∧
    (∀ x ∈ scored, x.2 ≤ M) ∧
    cselect_child flog fsqrt t mms base init γ mq players H rng =
      some ((List.replicate H (-1 : ℤ)).set 0
              ((lst.getD ((randDraw rng).1 % lst.length) 0 : ℕ) : ℤ),
            (randDraw rng).2, lst.length) := by
  have hfold : (M, lst) = scored.foldl (selectStep epsilonTie) (floatMin, []) := by
    rw [cselect_candidates, hsc] at hcand
    simp only [Option.map_some', Option.some.injEq] at hcand
    exact hcand.symm
  have hlst : lst ≠ [] := by
    rcases scored with _ | ⟨x, rest⟩
    · exact absurd rfl hne
    · have hx : floatMin - epsilonTie ≤ x.2 := by
        have := hfin x (by simp)
        have heps : (0 : ℚ) < epsilonTie := by norm_num [epsilonTie]
        linarith
      have := selectFold_start_ne_nil epsilonTie x rest floatMin hx
      intro hc
      rw [← hfold] at this
      exact this (by simpa using hc)
  refine ⟨hlst, ?_, ?_, ?_⟩
  · intro a ha
    have hsound := selectFold_sound epsilonTie (by norm_num [epsilonTie]) scored scored
      floatMin [] (by intro b hb; simp at hb) (fun x hx => hx) a
      (by rw [← hfold] at *; exact ha)
    rw [← hfold] at hsound
    exact hsound
  · intro x hx
    have h1 := foldl_max2_mem_le scored floatMin x hx
    have h2 : M = scored.foldl (fun m x => max m x.2) floatMin := by
      have := selectFold_fst epsilonTie scored floatMin []
      rw [← hfold] at this
      exact this
    rw [h2]
    exact h1
  · rw [cselect_child, hcand]
    dsimp only [Option.map_some']
    rw [if_pos (List.length_pos.mpr hlst)]

/-- C5 counterexample: at c5Node the two PUCT scores are 1 and
1 + 3e-7 (closer than the 1e-6 margin), yet the candidate list is [1]
alone: child 0, although within 1e-6 of the maximum, was cleared from
the list when child 1 strictly improved the running maximum, so the
claimed uniform choice over exactly the within-margin children fails. -/
theorem c5_counterexample :
    scoredChildren id id c5Node c5Stats 1 0 (1/2) 0 1 =
      some [(0, 1), (1, 1 + 3/10000000)] ∧
    cselect_candidates id id c5Node c5Stats 1 0 (1/2) 0 1 =
      some (1 + 3/10000000, [1]) ∧
    (1 : ℚ) ≥ (1 + 3/10000000) - epsilonTie ∧
    (0 : ℕ) ∉ [1] := by
  refine ⟨?_, ?_, by norm_num [epsilonTie], by decide⟩
  · norm_num [scoredChildren, optMapList, c5Node, c5Stats, get_child, assocFind,
      newCNode, cucb_score, CMinMaxStats.normalize, CNode.value]
  · norm_num [cselect_candidates, scoredChildren, optMapList, c5Node, c5Stats,
      get_child, assocFind, newCNode, cucb_score, CMinMaxStats.normalize, CNode.value,
      selectStep, epsilonTie, floatMin]

/-- C5 witness: the amended theorem at c5Node with rng draw 5: the single
candidate (child 1) is picked at index 5 mod 1 = 0. -/
theorem c5_witness :
    cselect_child id id c5Node c5Stats 1 0 (1/2) 0 1 4 [5] =
      some ([1, -1, -1, -1], [], 1) := by
  have h := c5_tie_break id id c5Node c5Stats 1 0 (1/2) 0 1 4 [5]
    [(0, 1), (1, 1 + 3/10000000)] (1 + 3/10000000) [1]
    (by norm_num [scoredChildren, optMapList, c5Node, c5Stats, get_child, assocFind,
      newCNode, cucb_score, CMinMaxStats.normalize, CNode.value])
    (by simp)
    (by intro x hx; fin_cases hx <;> norm_num [floatMin])
    (by norm_num [cselect_candidates, scoredChildren, optMapList, c5Node, c5Stats,
      get_child, assocFind, newCNode, cucb_score, CMinMaxStats.normalize, CNode.value,
      selectStep, epsilonTie, floatMin])
  have h4 := h.2.2.2
  simpa [randDraw] using h4

/-- C8: when the legal actions are non-empty, every legal child exists
(so the scores are defined) and all scores are at least FLOAT_MIN, the
candidate list is non-empty, the returned vector carries a legal action
in its first slot, and the all-(-1) fallback branch is not taken. -/
theorem c8_first_slot_legal (flog fsqrt : ℚ → ℚ) (t : CNode) (mms : CMinMaxStats)
    (base init γ mq : ℚ) (players : ℤ) (H : ℕ) (rng : List ℕ)
    (scored : List (ℕ × ℚ)) (M : ℚ) (lst : List ℕ)
    (hleg : t.data.legal_actions ≠ [])
    (hsc : scoredChildren flog fsqrt t mms base init γ mq players = some scored)
    (hfin : ∀ x ∈ scored, floatMin ≤ x.2)
    (hcand : cselect_candidates flog fsqrt t mms base init γ mq players
      = some (M, lst))
    (hH : 0 < H) :
    0 < lst.length ∧
    lst.getD ((randDraw rng).1 % lst.length) 0 ∈ t.data.legal_actions ∧
    cselect_child flog fsqrt t mms base init γ mq players H rng =
      some ((List.replicate H (-1 : ℤ)).set 0
              ((lst.getD ((randDraw rng).1 % lst.length) 0 : ℕ) : ℤ),
            (randDraw rng).2, lst.length) ∧
    ((List.replicate H (-1 : ℤ)).set 0
        ((lst.getD ((randDraw rng).1 % lst.length) 0 : ℕ) : ℤ)).getD 0 (-1)
      = ((lst.getD ((randDraw rng).1 % lst.length) 0 : ℕ) : ℤ) := by
  have hkeys : scored.map Prod.fst = t.data.legal_actions :=
    scored_fst t _ t.data.legal_actions scored hsc
  have hne : scored ≠ [] := by
    intro hc
    rw [hc] at hkeys
    exact hleg hkeys.symm
  have hmain := c5_tie_break flog fsqrt t mms base init γ mq players H rng scored M lst
    hsc hne hfin hcand
  have hlen : 0 < lst.length := List.length_pos.mpr hmain.1
  have hmem : lst.getD ((randDraw rng).1 % lst.length) 0 ∈ lst :=
    getD_mem_of_lt lst _ 0 (Nat.mod_lt _ hlen)
  have hlegmem : lst.getD ((randDraw rng).1 % lst.length) 0 ∈ t.data.legal_actions := by
    rcases hmain.2.1 _ hmem with ⟨s, hs, _, _⟩
    rw [← hkeys]
    exact List.mem_map.mpr ⟨_, hs, rfl⟩
  refine ⟨hlen, hlegmem, hmain.2.2.2, ?_⟩
  rcases H with _ | H2
  · exact absurd hH (by simp)
  · rw [List.replicate_succ]
    rfl

/-- C8 witness: at c5Node the fallback is not taken and the selected
first slot holds the legal action 1. -/
theorem c8_witness :
    (0 : ℕ) < [1].length ∧
    [1].getD ((randDraw [0]).1 % [1].length) 0 ∈ c5Node.data.legal_actions ∧
    cselect_child id id c5Node c5Stats 1 0 (1/2) 0 1 4 [0] =
      some ((List.replicate 4 (-1 : ℤ)).set 0
              (([1].getD ((randDraw [0]).1 % [1].length) 0 : ℕ) : ℤ),
            (randDraw [0]).2, [1].length) ∧
    ((List.replicate 4 (-1 : ℤ)).set 0
        (([1].getD ((randDraw [0]).1 % [1].length) 0 : ℕ) : ℤ)).getD 0 (-1)
      = (([1].getD ((randDraw [0]).1 % [1].length) 0 : ℕ) : ℤ) := by
  exact c8_first_slot_legal id id c5Node c5Stats 1 0 (1/2) 0 1 4 [0]
    [(0, 1), (1, 1 + 3/10000000)] (1 + 3/10000000) [1]
    (by decide)
    (by norm_num [scoredChildren, optMapList, c5Node, c5Stats, get_child, assocFind,
      newCNode, cucb_score, CMinMaxStats.normalize, CNode.value])
    (by intro x hx; fin_cases hx <;> norm_num [floatMin])
    (by norm_num [cselect_candidates, scoredChildren, optMapList, c5Node, c5Stats,
      get_child, assocFind, newCNode, cucb_score, CMinMaxStats.normalize, CNode.value,
      selectStep, epsilonTie, floatMin])
    (by norm_num)

/-! # Claim C9: the child lookups of compute_mean_q -/

theorem meanQLoop_none (γ pvp : ℚ) (ir : ℤ) (t : CNode) :
    ∀ (keys : List ℕ) (s : ℚ × ℕ) (k : ℕ), k ∈ keys → get_child t k = none →
      meanQLoop γ pvp ir t keys s = none := by
  intro keys
  induction keys with
  | nil => intro s k hk _; simp at hk
  | cons k2 rest ih =>
      intro s k hk hnone
      rw [meanQLoop]
      cases hget : get_child t k2 with
      | none => rfl
      | some c =>
          dsimp only
          rcases List.mem_cons.mp hk with rfl | hk2
          · rw [hget] at hnone; cases hnone
          · exact ih _ k hk2 hnone

theorem assocFind_isSome_of_mem_keys {α : Type} :
    ∀ (ch : List (ℕ × α)) (a : ℕ), a ∈ ch.map Prod.fst → (assocFind a ch).isSome := by
  intro ch
  induction ch with
  | nil => intro a ha; simp at ha
  | cons kc rest ih =>
      intro a ha
      rw [assocFind]
      by_cases h : kc.1 = a
      · rw [if_pos h]; rfl
      · rw [if_neg h]
        rw [List.map_cons, List.mem_cons] at ha
        rcases ha with h1 | h2
        · exact absurd h1.symm h
        · exact ih a h2

theorem expandNode_children_map (fexp : ℚ → ℚ) (tp li bi : ℤ) (vp : ℚ)
    (pol : List ℚ) (t : CNode) :
    ∃ g : ℕ → ℚ,
      (expandNode fexp tp li bi vp pol t).children =
        ((expandNode fexp tp li bi vp pol t).data.legal_actions).map
          (fun a => (a, newCNode (g a) [])) := by
  rw [expandNode]
  dsimp only
  exact ⟨_, rfl⟩

/-- C9 (amended): after expand the children are keyed by exactly the
legal actions, so when the legal actions are the dense range 0..m every
head-0 lookup get_child(a) of compute_mean_q succeeds; but for
NUM_ACTION_HEADS at least 2, the head-1 lookup a + ACTIONS_PER_PLAYER is
at or beyond children.size() (since m <= ACTIONS_PER_PLAYER), get_child
returns null, and compute_mean_q dereferences the null handle (modelled
as none): the claimed null-safety holds only in the single-head case. -/
theorem c9_lookup_dichotomy :
    (∀ (fexp : ℚ → ℚ) (tp li bi : ℤ) (vp : ℚ) (pol : List ℚ) (t : CNode) (m a : ℕ),
      (expandNode fexp tp li bi vp pol t).data.legal_actions = List.range m →
      a ∈ (expandNode fexp tp li bi vp pol t).data.legal_actions →
      (get_child (expandNode fexp tp li bi vp pol t) a).isSome) ∧
    (∀ (fexp : ℚ → ℚ) (tp li bi : ℤ) (vp : ℚ) (pol : List ℚ) (t : CNode)
        (m H A : ℕ) (isRoot : ℤ) (pq γ : ℚ),
      (expandNode fexp tp li bi vp pol t).data.legal_actions = List.range m →
      0 < m → m ≤ A → 2 ≤ H →
      compute_mean_q H A (expandNode fexp tp li bi vp pol t) isRoot pq γ = none) := by
  constructor
  · intro fexp tp li bi vp pol t m a hleg ha
    rcases expandNode_children_map fexp tp li bi vp pol t with ⟨g, hch⟩
    rw [get_child, hch]
    have hlen : (((expandNode fexp tp li bi vp pol t).data.legal_actions).map
        (fun a => (a, newCNode (g a) []))).length = m := by
      rw [List.length_map, hleg, List.length_range]
    have halt : a < m := by
      rw [hleg] at ha
      exact List.mem_range.mp ha
    rw [if_neg (by omega)]
    refine assocFind_isSome_of_mem_keys _ a ?_
    exact List.mem_map.mpr ⟨(a, newCNode (g a) []), List.mem_map.mpr ⟨a, ha, rfl⟩, rfl⟩
  · intro fexp tp li bi vp pol t m H A isRoot pq γ hleg hm hmA hH
    rcases expandNode_children_map fexp tp li bi vp pol t with ⟨g, hch⟩
    have hlen : (expandNode fexp tp li bi vp pol t).children.length = m := by
      rw [hch, List.length_map, hleg, List.length_range]
    have hbad : get_child (expandNode fexp tp li bi vp pol t) (0 + 1 * A) = none := by
      rw [get_child, if_pos (by omega)]
    have hmem : (0 + 1 * A) ∈ childLookupKeys H A (expandNode fexp tp li bi vp pol t) := by
      rw [childLookupKeys]
      refine List.mem_flatMap.mpr ⟨1, List.mem_range.mpr (by omega), ?_⟩
      refine List.mem_map.mpr ⟨0, ?_, rfl⟩
      rw [hleg]
      exact List.mem_range.mpr hm
    rw [compute_mean_q, meanQCore,
      meanQLoop_none γ _ _ _ (childLookupKeys H A (expandNode fexp tp li bi vp pol t))
        ((0 : ℚ), (0 : ℕ)) (0 + 1 * A) hmem hbad]
    rfl

/-- C9 witness: the amended theorem at a node expanded over a two-logit
policy: the head-0 lookup of action 0 succeeds, and with two heads
compute_mean_q hits the missing child. -/
theorem c9_witness :
    (get_child c9Node 0).isSome ∧ compute_mean_q 2 2 c9Node 1 0 (1/2) = none := by
  constructor
  · exact c9_lookup_dichotomy.1 (fun _ => 1) 0 0 0 0 [0, 0] (newCNode 0 []) 2 0
      (by decide) (by decide)
  · exact c9_lookup_dichotomy.2 (fun _ => 1) 0 0 0 0 [0, 0] (newCNode 0 []) 2 2 2 1 0
      (1/2) (by decide) (by norm_num) (by norm_num) (by norm_num)

/-- C9 counterexample: the expanded example node has legal actions [0, 1]
and children keyed 0 and 1, yet the head-1 lookup 0 + 1 * 2 = 2 performed
by compute_mean_q returns null, and compute_mean_q dereferences it. -/
theorem c9_counterexample :
    c9Node.data.legal_actions = [0, 1] ∧
    c9Node.children.map Prod.fst = [0, 1] ∧
    get_child c9Node (0 + 1 * 2) = none ∧
    compute_mean_q 2 2 c9Node 1 0 (1/2) = none := by
  refine ⟨?_, ?_, ?_, ?_⟩
  · decide
  · decide
  · rfl
  · norm_num +decide [compute_mean_q, meanQCore, meanQLoop, childLookupKeys, c9Node,
      expandNode, newCNode, get_child, assocFind, qsaOf, CNode.value,
      List.range_succ, show List.range 2 = [0, 1] from rfl]

/-! # Claim C2: batched independence of the search round -/

set_option maxRecDepth 8000 in
/-- C2 counterexample: two identical freshly prepared roots (disjoint
objects, so disjoint input data) with two equal-prior children each, and
the PRNG stream (0, 1).  In the two-root round, element 0 consumes the
first draw for its tie-break, so element 1 breaks its tie with the second
draw and visits child 1; run alone on the same stream, element 1 consumes
the first draw and visits child 0.  The resulting trees differ (children
visit distributions (0,1) versus (1,0)): the traversal of a batch element
depends on the other elements through the shared PRNG stream. -/
theorem c2_counterexample :
    roundTreeDistribution (searchRound id id (fun _ => 1) 1 2 1 0 (1/2) 2 7
      [c1Root, c1Root] [freshStats, freshStats] [-1, -1] [0, 0] [1, 1]
      [[0, 0], [0, 0]] [0, 0] [-1, -1] [0, 1]) 1 = some [0, 1] ∧
    roundTreeDistribution (searchRound id id (fun _ => 1) 1 2 1 0 (1/2) 2 7
      [c1Root] [freshStats] [-1] [0] [1] [[0, 0]] [0] [-1] [0, 1]) 0 = some [1, 0] ∧
    some [0, 1] ≠ some ([1, 0] : List ℕ) := by
  refine ⟨?_, ?_, by simp⟩
  · norm_num +decide [roundTreeDistribution, searchRound, cbatch_traverse,
      traverseBatchLoop, traverseLoop, compute_mean_q, meanQCore, meanQLoop,
      childLookupKeys, qsaOf, cselect_child, cselect_candidates, scoredChildren,
      optMapList, cucb_score, CMinMaxStats.normalize, selectStep, epsilonTie, floatMin,
      get_child, assocFind, get_child_xhot, encode_action, randDraw, backpropLoop,
      backpropElem, resetFlag, extractPath, expandNode, cbackpropagate, bpParentInfos, backpropRev,
      backstep, applyUpdates, CMinMaxStats.update, rebuildPath, replaceChild,
      get_children_distribution, CNode.value, CNode.expanded, newCNode, c1Root,
      freshStats, List.range_succ]
  · norm_num +decide [roundTreeDistribution, searchRound, cbatch_traverse,
      traverseBatchLoop, traverseLoop, compute_mean_q, meanQCore, meanQLoop,
      childLookupKeys, qsaOf, cselect_child, cselect_candidates, scoredChildren,
      optMapList, cucb_score, CMinMaxStats.normalize, selectStep, epsilonTie, floatMin,
      get_child, assocFind, get_child_xhot, encode_action, randDraw, backpropLoop,
      backpropElem, resetFlag, extractPath, expandNode, cbackpropagate, bpParentInfos, backpropRev,
      backstep, applyUpdates, CMinMaxStats.update, rebuildPath, replaceChild,
      get_children_distribution, CNode.value, CNode.expanded, newCNode, c1Root,
      freshStats, List.range_succ]

theorem randDraw_snd : ∀ (l : List ℕ), (randDraw l).2 = l.drop 1 := by
  intro l
  cases l <;> rfl

theorem backstep_batchIdx (γ : ℚ) (tp : ℤ) (bv : ℚ) (d : NodeData)
    (ch : List (ℕ × CNode)) (info : ℚ × ℤ) (b : ℤ) :
    backstep γ tp bv (CNode.mk { d with batchIdx := b } ch, info) =
      (CNode.mk { (backstep γ tp bv (CNode.mk d ch, info)).1.data with batchIdx := b }
        (backstep γ tp bv (CNode.mk d ch, info)).1.children,
       (backstep γ tp bv (CNode.mk d ch, info)).2.1,
       (backstep γ tp bv (CNode.mk d ch, info)).2.2) := rfl

theorem backpropRev_head_batchIdx (γ : ℚ) (tp : ℤ) (bv : ℚ) (d : NodeData)
    (ch : List (ℕ × CNode)) (info : ℚ × ℤ) (b : ℤ) (rest : List (CNode × ℚ × ℤ)) :
    (backpropRev γ tp bv ((CNode.mk { d with batchIdx := b } ch, info) :: rest)).2 =
      (backpropRev γ tp bv ((CNode.mk d ch, info) :: rest)).2 ∧
    ∃ n ns, (backpropRev γ tp bv ((CNode.mk d ch, info) :: rest)).1 = n :: ns ∧
      (backpropRev γ tp bv ((CNode.mk { d with batchIdx := b } ch, info) :: rest)).1
        = CNode.mk { n.data with batchIdx := b } n.children :: ns := by
  rw [backpropRev, backpropRev, backstep_batchIdx]
  exact ⟨rfl, _, _, rfl, rfl⟩

theorem rebuildPath_nil_right : ∀ (ks : List ℕ), rebuildPath ks [] = none := by
  intro ks
  cases ks <;> rfl

theorem stripIdxL_replaceChild (k : ℕ) (c c2 : CNode) (hs : stripIdx c2 = stripIdx c) :
    ∀ ch : List (ℕ × CNode),
      stripIdxL (replaceChild k c2 ch) = stripIdxL (replaceChild k c ch) := by
  intro ch
  induction ch with
  | nil => rfl
  | cons kc rest ih =>
      rw [replaceChild, List.map_cons, replaceChild, List.map_cons]
      by_cases h : kc.1 = k
      · rw [if_pos h, if_pos h, stripIdxL, stripIdxL]
        rw [show replaceChild k c2 rest = rest.map
          (fun kc => if kc.1 = k then (kc.1, c2) else kc) from rfl] at ih
        rw [show replaceChild k c rest = rest.map
          (fun kc => if kc.1 = k then (kc.1, c) else kc) from rfl] at ih
        rw [hs, ih]
      · rw [if_neg h, if_neg h, stripIdxL, stripIdxL]
        rw [show replaceChild k c2 rest = rest.map
          (fun kc => if kc.1 = k then (kc.1, c2) else kc) from rfl] at ih
        rw [show replaceChild k c rest = rest.map
          (fun kc => if kc.1 = k then (kc.1, c) else kc) from rfl] at ih
        rw [ih]

theorem rebuild_strip_batchIdx (b : ℤ) :
    ∀ (keys : List ℕ) (ns : List CNode) (n : CNode) (T : CNode),
      rebuildPath keys (ns ++ [n]) = some T →
      ∃ T2, rebuildPath keys
          (ns ++ [CNode.mk { n.data with batchIdx := b } n.children]) = some T2 ∧
        stripIdx T2 = stripIdx T := by
  intro keys
  induction keys with
  | nil =>
      intro ns n T h
      cases ns with
      | nil =>
          rw [List.nil_append] at h
          rw [rebuildPath] at h
          cases h
          refine ⟨_, by rw [List.nil_append, rebuildPath], ?_⟩
          cases n with
          | mk d ch => rfl
      | cons x xs =>
          exfalso
          rcases xs with _ | ⟨y, ys⟩ <;> simp [rebuildPath] at h
  | cons k ks ih =>
      intro ns n T h
      cases ns with
      | nil =>
          exfalso
          rw [List.nil_append, rebuildPath, rebuildPath_nil_right] at h
          cases h
      | cons m ms =>
          rw [List.cons_append, rebuildPath] at h
          cases hrec : rebuildPath ks (ms ++ [n]) with
          | none => rw [hrec] at h; cases h
          | some c =>
              rw [hrec] at h
              simp only [Option.map_some', Option.some.injEq] at h
              rcases ih ms n c hrec with ⟨c2, hc2, hsc⟩
              refine ⟨CNode.mk m.data (replaceChild k c2 m.children), ?_, ?_⟩
              · rw [List.cons_append, rebuildPath, hc2]
                rfl
              · rw [← h, stripIdx, stripIdx]
                rw [stripIdxL_replaceChild k c c2 hsc]

theorem expandNode_batchIdx (fexp : ℚ → ℚ) (tp li : ℤ) (i j : ℤ) (vp : ℚ)
    (pol : List ℚ) (t : CNode) :
    expandNode fexp tp li j vp pol t =
      CNode.mk { (expandNode fexp tp li i vp pol t).data with batchIdx := j }
        (expandNode fexp tp li i vp pol t).children := rfl

theorem cbackprop_leaf_batchIdx (p : List CNode) (L : CNode) (b tp : ℤ) (v γ : ℚ) :
    (cbackpropagate (p ++ [CNode.mk { L.data with batchIdx := b } L.children])
        tp v γ).2 = (cbackpropagate (p ++ [L]) tp v γ).2 ∧
    ∃ ns n, (cbackpropagate (p ++ [L]) tp v γ).1 = ns ++ [n] ∧
      (cbackpropagate (p ++ [CNode.mk { L.data with batchIdx := b } L.children])
          tp v γ).1 = ns ++ [CNode.mk { n.data with batchIdx := b } n.children] := by
  cases L with
  | mk d ch =>
  rw [CNode.data_mk, CNode.children_mk]
  have hinfo : bpParentInfos (p ++ [CNode.mk { d with batchIdx := b } ch]) =
      bpParentInfos (p ++ [CNode.mk d ch]) := by
    rw [bpParentInfos, bpParentInfos, List.dropLast_concat, List.dropLast_concat]
  have hne : bpParentInfos (p ++ [CNode.mk d ch]) ≠ [] := by
    rw [bpParentInfos]
    exact List.cons_ne_nil _ _
  have hlen : p.length = (bpParentInfos (p ++ [CNode.mk d ch])).dropLast.length := by
    rw [List.length_dropLast, bpParentInfos, List.dropLast_concat]
    simp
  have hzip : ∀ x : CNode, (p ++ [x]).zip (bpParentInfos (p ++ [CNode.mk d ch])) =
      p.zip (bpParentInfos (p ++ [CNode.mk d ch])).dropLast ++
        [(x, (bpParentInfos (p ++ [CNode.mk d ch])).getLast hne)] := by
    intro x
    conv_lhs => rw [← List.dropLast_append_getLast hne]
    rw [List.zip_append hlen]
    rfl
  rw [cbackpropagate, cbackpropagate, hinfo, hzip, hzip]
  dsimp only
  simp only [List.reverse_append, List.reverse_singleton, List.singleton_append]
  rcases backpropRev_head_batchIdx γ tp v d ch
      ((bpParentInfos (p ++ [CNode.mk d ch])).getLast hne) b
      ((p.zip (bpParentInfos (p ++ [CNode.mk d ch])).dropLast).reverse) with
    ⟨hq, n, ns, h1, h2⟩
  refine ⟨by rw [hq], ns.reverse, n, ?_, ?_⟩
  · rw [h1, List.reverse_cons]
  · rw [h2, List.reverse_cons]

theorem resetFlag_expand_idx (fexp : ℚ → ℚ) (tp li : ℤ) (i j : ℤ) (vp : ℚ)
    (pol : List ℚ) (leaf : CNode) (ir : ℤ) :
    resetFlag ir (expandNode fexp tp li j vp pol leaf) =
      CNode.mk { (resetFlag ir (expandNode fexp tp li i vp pol leaf)).data with
                 batchIdx := j }
        (resetFlag ir (expandNode fexp tp li i vp pol leaf)).children := rfl

theorem backpropElem_idx (fexp : ℚ → ℚ) (li : ℤ) (γ : ℚ) (i j : ℕ)
    (tree : CNode) (keys : List ℕ) (stats : CMinMaxStats) (vp v : ℚ)
    (pol : List ℚ) (ir tp : ℤ) (T : CNode) (S : CMinMaxStats)
    (h : backpropElem fexp li γ i tree keys stats vp v pol ir tp = some (T, S)) :
    ∃ T2, backpropElem fexp li γ j tree keys stats vp v pol ir tp = some (T2, S) ∧
      stripIdx T2 = stripIdx T := by
  cases hpath : extractPath tree keys with
  | none =>
      rw [backpropElem, hpath] at h
      cases h
  | some path =>
      rw [backpropElem, hpath] at h
      rw [backpropElem, hpath]
      dsimp only at h ⊢
      cases hlast : path.getLast? with
      | none =>
          rw [hlast] at h
          cases h
      | some leaf =>
          rw [hlast] at h
          dsimp only at h ⊢
          rw [resetFlag_expand_idx fexp tp li (i : ℤ) (j : ℤ) vp pol leaf ir]
          rcases cbackprop_leaf_batchIdx path.dropLast
              (resetFlag ir (expandNode fexp tp li (i : ℤ) vp pol leaf))
              (j : ℤ) tp v γ with ⟨hq, ns, n, hns1, hns2⟩
          rw [hns1] at h
          cases hreb : rebuildPath keys (ns ++ [n]) with
          | none => rw [hreb] at h; cases h
          | some tree2 =>
              rw [hreb] at h
              simp only [Option.some.injEq, Prod.mk.injEq] at h
              rcases rebuild_strip_batchIdx (j : ℤ) keys ns n tree2 hreb with
                ⟨T2, hT2, hstrip⟩
              rw [hns2, hT2]
              refine ⟨T2, ?_, by rw [hstrip, h.1]⟩
              rw [hq, h.2]

theorem compute_mean_q_pq_indep (H A : ℕ) (t : CNode) (isRoot : ℤ) (pq pq2 γ : ℚ)
    (hroot : rootMeanDetermined H A γ t) (hR : isRoot ≠ 0) :
    compute_mean_q H A t isRoot pq γ = compute_mean_q H A t isRoot pq2 γ := by
  rcases hroot with ⟨tq, tv, hcore, htv⟩
  rw [compute_mean_q, compute_mean_q, hcore]
  simp only [Option.map_some']
  rw [if_pos ⟨hR, htv⟩, if_pos ⟨hR, htv⟩]

theorem cselect_child_singleton (flog fsqrt : ℚ → ℚ) (t : CNode) (mms : CMinMaxStats)
    (base init γ mq : ℚ) (players : ℤ) (H : ℕ) (rng : List ℕ)
    (actions : List ℤ) (rng2 : List ℕ)
    (h : cselect_child flog fsqrt t mms base init γ mq players H rng
      = some (actions, rng2, 1)) :
    rng2 = rng.drop 1 ∧
    ∀ rngX, cselect_child flog fsqrt t mms base init γ mq players H rngX
      = some (actions, rngX.drop 1, 1) := by
  rw [cselect_child] at h
  cases hcand : cselect_candidates flog fsqrt t mms base init γ mq players with
  | none => rw [hcand] at h; cases h
  | some mc =>
      rw [hcand] at h
      simp only [Option.map_some', Option.some.injEq] at h
      by_cases hlen : 0 < mc.2.length
      · rw [if_pos hlen] at h
        have hk : mc.2.length = 1 := by
          have := congrArg (fun x => x.2.2) h
          simpa using this
        have hr2 : rng2 = rng.drop 1 := by
          have := congrArg (fun x => x.2.1) h
          simp only at this
          rw [← this, randDraw_snd]
        have hact : (List.replicate H (-1 : ℤ)).set 0
            ((mc.2.getD ((randDraw rng).1 % mc.2.length) 0 : ℕ) : ℤ) = actions := by
          have := congrArg (fun x => x.1) h
          simpa using this
        refine ⟨hr2, ?_⟩
        intro rngX
        rw [cselect_child, hcand]
        simp only [Option.map_some']
        rw [if_pos hlen]
        rw [randDraw_snd]
        rw [← hact, hk]
        simp only [Nat.mod_one]
      · rw [if_neg hlen] at h
        exfalso
        have := congrArg (fun x => x.2.2) h
        simp at this

theorem traverseLoop_tie_free (flog fsqrt : ℚ → ℚ) (H A : ℕ) (base init γ : ℚ)
    (mms : CMinMaxStats) (players : ℤ) :
    ∀ (fuel : ℕ) (t : CNode) (isRoot vtp : ℤ) (pq pq2 : ℚ) (rng rng2 : List ℕ)
      (res : TravResult) (pqO : ℚ) (rngO : List ℕ),
      traverseLoop flog fsqrt H A base init γ mms players fuel t isRoot vtp pq rng
        = some (res, pqO, rngO) →
      (∀ k ∈ res.tieSizes, k = 1) →
      (pq2 = pq ∨ (isRoot ≠ 0 ∧ rootMeanDetermined H A γ t)) →
      rngO = rng.drop res.searchLen ∧
      ∃ pqO2, traverseLoop flog fsqrt H A base init γ mms players fuel t isRoot vtp
        pq2 rng2 = some (res, pqO2, rng2.drop res.searchLen) := by
  intro fuel
  induction fuel with
  | zero =>
      intro t isRoot vtp pq pq2 rng rng2 res pqO rngO h hties hpq
      rw [traverseLoop] at h ⊢
      by_cases hexp : t.expanded = true
      · rw [if_pos hexp] at h
        cases h
      · rw [if_neg hexp] at h ⊢
        simp only [Option.some.injEq, Prod.mk.injEq] at h
        rcases h with ⟨hres, _, hrngO⟩
        subst hres
        refine ⟨?_, pq2, rfl⟩
        rw [← hrngO]
        rfl
  | succ fuel2 ih =>
      intro t isRoot vtp pq pq2 rng rng2 res pqO rngO h hties hpq
      by_cases hexp : t.expanded = true
      · rw [traverseLoop, if_pos hexp] at h
        dsimp only at h
        cases hmq : compute_mean_q H A t isRoot pq γ with
        | none => rw [hmq] at h; cases h
        | some mq =>
            rw [hmq] at h
            dsimp only at h
            cases hsel : cselect_child flog fsqrt t mms base init γ mq players H rng with
            | none => rw [hsel] at h; cases h
            | some trip =>
                rcases trip with ⟨actions, rng2x, k⟩
                rw [hsel] at h
                dsimp only at h
                cases hch : get_child_xhot H A
                    (CNode.mk { t.data with best_action := actions } t.children)
                    actions with
                | none => rw [hch] at h; cases h
                | some child =>
                    rw [hch] at h
                    dsimp only at h
                    cases hrec : traverseLoop flog fsqrt H A base init γ mms players
                        fuel2 child 0
                        (if 1 < players then (if vtp = 1 then 2 else 1) else vtp)
                        mq rng2x with
                    | none => rw [hrec] at h; cases h
                    | some trip2 =>
                        rcases trip2 with ⟨res2, pqO2x, rngO2x⟩
                        rw [hrec] at h
                        dsimp only at h
                        simp only [Option.some.injEq, Prod.mk.injEq] at h
                        rcases h with ⟨hres, _, hrngO⟩
                        subst hres
                        dsimp only at hties
                        have hk : k = 1 := hties k (by simp)
                        have hties2 : ∀ x ∈ res2.tieSizes, x = 1 := by
                          intro x hx
                          exact hties x (by simp [hx])
                        subst hk
                        rcases cselect_child_singleton flog fsqrt t mms base init γ mq
                            players H rng actions rng2x hsel with ⟨hr2x, hAll⟩
                        have hmq2 : compute_mean_q H A t isRoot pq2 γ = some mq := by
                          rcases hpq with rfl | ⟨hR, hroot⟩
                          · exact hmq
                          · rw [compute_mean_q_pq_indep H A t isRoot pq2 pq γ hroot hR]
                            exact hmq
                        rcases ih child 0
                            (if 1 < players then (if vtp = 1 then 2 else 1) else vtp)
                            mq mq rng2x (rng2.drop 1) res2 pqO2x rngO2x hrec hties2
                            (Or.inl rfl) with ⟨hrng1, pqOut2, hrun2⟩
                        constructor
                        · rw [← hrngO, hrng1, hr2x]
                          dsimp only
                          rw [List.drop_drop, Nat.add_comm]
                        · refine ⟨pqOut2, ?_⟩
                          rw [traverseLoop, if_pos hexp]
                          dsimp only
                          rw [hmq2]
                          dsimp only
                          rw [hAll rng2]
                          dsimp only
                          rw [hch]
                          dsimp only
                          rw [hrun2]
                          dsimp only
                          rw [List.drop_drop, Nat.add_comm]
      · rw [traverseLoop, if_neg hexp] at h ⊢
        simp only [Option.some.injEq, Prod.mk.injEq] at h
        rcases h with ⟨hres, _, hrngO⟩
        subst hres
        refine ⟨?_, pq2, rfl⟩
        rw [← hrngO]
        rfl

/-- C2 (amended): the per-element traversals share the PRNG draw stream
and the carried parent_q, so a batch element's round result is identical
to its solo result only up to those channels (the counterexample shows
the PRNG leak).  Concretely, for a two-root single-player batch whose
second element has singleton tie-sets throughout and a root mean-q
determined by visited children (so parent_q is not read), the search
round gives that element the same MinMaxStats and the same tree - up to
the latent/batch bookkeeping indices, which necessarily record the
element's position - as a solo round on any PRNG stream. -/
theorem c2_batch_independence (flog fsqrt fexp : ℚ → ℚ) (H A : ℕ)
    (base init γ : ℚ) (fuel : ℕ) (li : ℤ)
    (t0 t1 : CNode) (s0 s1 : CMinMaxStats)
    (vp0 vp1 v0 v1 : ℚ) (pol0 pol1 : List ℚ) (ir0 ir1 tp0 tp1 : ℤ)
    (rngB rngS : List ℕ) (res0 res1 : TravResult) (pqF : ℚ) (rngF : List ℕ)
    (outB : List (CNode × CMinMaxStats))
    (htrav : cbatch_traverse flog fsqrt H A base init γ fuel [t0, t1] [s0, s1]
       [-1, -1] rngB = some ([res0, res1], pqF, rngF))
    (hties : ∀ k ∈ res1.tieSizes, k = 1)
    (hroot : rootMeanDetermined H A γ t1)
    (hround : searchRound flog fsqrt fexp H A base init γ fuel li [t0, t1] [s0, s1]
       [-1, -1] [vp0, vp1] [v0, v1] [pol0, pol1] [ir0, ir1] [tp0, tp1] rngB
       = some outB) :
    ∃ e0 e1 Tsolo,
      outB = [e0, e1] ∧
      searchRound flog fsqrt fexp H A base init γ fuel li [t1] [s1] [-1]
        [vp1] [v1] [pol1] [ir1] [tp1] rngS = some [(Tsolo, e1.2)] ∧
      stripIdx Tsolo = stripIdx e1.1 := by
  have htravC := htrav
  rw [cbatch_traverse] at htravC
  norm_num [List.zip_cons_cons] at htravC
  rw [traverseBatchLoop] at htravC
  cases hT0 : traverseLoop flog fsqrt H A base init γ s0 1 fuel t0 1 (-1) 0 rngB with
  | none => rw [hT0] at htravC; cases htravC
  | some trip0 =>
      rcases trip0 with ⟨r0, pq1, rng1⟩
      rw [hT0] at htravC
      dsimp only at htravC
      by_cases hlen0 : r0.searchLen = 0
      · rw [if_pos hlen0] at htravC; cases htravC
      rw [if_neg hlen0] at htravC
      rw [traverseBatchLoop] at htravC
      cases hT1 : traverseLoop flog fsqrt H A base init γ s1 1 fuel t1 1 (-1) pq1
          rng1 with
      | none => rw [hT1] at htravC; cases htravC
      | some trip1 =>
          rcases trip1 with ⟨r1, pq2, rng2b⟩
          rw [hT1] at htravC
          dsimp only at htravC
          by_cases hlen1 : r1.searchLen = 0
          · rw [if_pos hlen1] at htravC; cases htravC
          rw [if_neg hlen1] at htravC
          rw [traverseBatchLoop] at htravC
          dsimp only at htravC
          simp only [Option.some.injEq, Prod.mk.injEq, List.cons.injEq,
            and_true] at htravC
          rcases htravC with ⟨⟨hr0, hr1⟩, _, _⟩
          subst hr0
          subst hr1
          rcases traverseLoop_tie_free flog fsqrt H A base init γ s1 1 fuel t1 1 (-1)
              pq1 0 rng1 rngS r1 pq2 rng2b hT1 hties
              (Or.inr ⟨by norm_num, hroot⟩) with ⟨_, pqS, hTS⟩
          have hSoloTrav : cbatch_traverse flog fsqrt H A base init γ fuel [t1] [s1]
              [-1] rngS = some ([r1], pqS, rngS.drop r1.searchLen) := by
            rw [cbatch_traverse]
            norm_num [List.zip_cons_cons]
            rw [traverseBatchLoop, hTS]
            dsimp only
            rw [if_neg hlen1, traverseBatchLoop]
          rw [searchRound, htrav] at hround
          dsimp only at hround
          rw [backpropLoop] at hround
          cases hb0 : backpropElem fexp li γ 0 r0.tree r0.pathKeys
              ([s0, s1].getD 0 ⟨0, 0⟩) ([vp0, vp1].getD 0 0) ([v0, v1].getD 0 0)
              ([pol0, pol1].getD 0 []) ([ir0, ir1].getD 0 0)
              ([tp0, tp1].getD 0 0) with
          | none => rw [hb0] at hround; cases hround
          | some e0 =>
              rw [hb0] at hround
              dsimp only at hround
              rw [backpropLoop] at hround
              cases hb1 : backpropElem fexp li γ 1 r1.tree r1.pathKeys
                  ([s0, s1].getD 1 ⟨0, 0⟩) ([vp0, vp1].getD 1 0) ([v0, v1].getD 1 0)
                  ([pol0, pol1].getD 1 []) ([ir0, ir1].getD 1 0)
                  ([tp0, tp1].getD 1 0) with
              | none => rw [hb1] at hround; cases hround
              | some e1 =>
                  rcases e1 with ⟨T1, S1⟩
                  rw [hb1] at hround
                  dsimp only at hround
                  rw [backpropLoop] at hround
                  simp only [Option.map_some', Option.some.injEq] at hround
                  simp only [List.getD] at hb1
                  rcases backpropElem_idx fexp li γ 1 0 r1.tree r1.pathKeys s1
                      vp1 v1 pol1 ir1 tp1 T1 S1 hb1 with ⟨T2, hb1S, hstrip⟩
                  refine ⟨e0, (T1, S1), T2, hround.symm, ?_, hstrip⟩
                  rw [searchRound, hSoloTrav]
                  dsimp only
                  rw [backpropLoop]
                  simp only [List.getD_cons_zero]
                  rw [hb1S]
                  dsimp only
                  rw [backpropLoop]
                  rfl

set_option maxRecDepth 8000 in
/-- Witness for C2 on a concrete two-element batch of c1RootV roots: the
hypotheses hold (the traverse succeeds with singleton tie-sets on element
1, whose root mean-q is determined by its visited child 0), and the
theorem yields the solo run matching batch element 1 up to the expanded
leaf's batch index. -/
theorem c2_batch_independence_witness :
    cbatch_traverse id id 1 2 1 0 (1/2) 2 [c1RootV, c1RootV] [c5Stats, c5Stats]
      [-1, -1] [0, 1] = some ([c2WTrav, c2WTrav], 7/2, []) ∧
    (∀ k ∈ c2WTrav.tieSizes, k = 1) ∧
    rootMeanDetermined 1 2 (1/2) c1RootV ∧
    searchRound id id (fun _ => 1) 1 2 1 0 (1/2) 2 7 [c1RootV, c1RootV]
      [c5Stats, c5Stats] [-1, -1] [1/4, 1/4] [1/2, 1/2] [[0, 0], [0, 0]] [0, 0] [0, 0]
      [0, 1] = some [(c2WOut 0, c5Stats), (c2WOut 1, c5Stats)] ∧
    (∃ e0 e1 Tsolo,
      [(c2WOut 0, c5Stats), (c2WOut 1, c5Stats)] = [e0, e1] ∧
      searchRound id id (fun _ => 1) 1 2 1 0 (1/2) 2 7 [c1RootV] [c5Stats] [-1]
        [1/4] [1/2] [[0, 0]] [0] [0] [9] = some [(Tsolo, e1.2)] ∧
      stripIdx Tsolo = stripIdx e1.1) := by
  have htrav : cbatch_traverse id id 1 2 1 0 (1/2) 2 [c1RootV, c1RootV]
      [c5Stats, c5Stats] [-1, -1] [0, 1] = some ([c2WTrav, c2WTrav], 7/2, []) := by
    norm_num +decide [cbatch_traverse, traverseBatchLoop, traverseLoop,
      compute_mean_q, meanQCore, meanQLoop, childLookupKeys, qsaOf, cselect_child,
      cselect_candidates, scoredChildren, optMapList, cucb_score,
      CMinMaxStats.normalize, selectStep, epsilonTie, floatMin, get_child, assocFind,
      get_child_xhot, encode_action, randDraw, replaceChild, CNode.value,
      CNode.expanded, newCNode, c1RootV, c5Stats, c2WTrav, c2WTree, List.range_succ]
  have hround : searchRound id id (fun _ => 1) 1 2 1 0 (1/2) 2 7 [c1RootV, c1RootV]
      [c5Stats, c5Stats] [-1, -1] [1/4, 1/4] [1/2, 1/2] [[0, 0], [0, 0]] [0, 0] [0, 0]
      [0, 1] = some [(c2WOut 0, c5Stats), (c2WOut 1, c5Stats)] := by
    norm_num +decide [searchRound, cbatch_traverse, traverseBatchLoop, traverseLoop,
      compute_mean_q, meanQCore, meanQLoop, childLookupKeys, qsaOf, cselect_child,
      cselect_candidates, scoredChildren, optMapList, cucb_score,
      CMinMaxStats.normalize, selectStep, epsilonTie, floatMin, get_child, assocFind,
      get_child_xhot, encode_action, randDraw, backpropLoop, backpropElem, resetFlag,
      extractPath, expandNode, cbackpropagate, bpParentInfos, backpropRev, backstep,
      applyUpdates, CMinMaxStats.update, rebuildPath, replaceChild, CNode.value,
      CNode.expanded, newCNode, c1RootV, c5Stats, c2WOut, List.range_succ]
  have hties : ∀ k ∈ c2WTrav.tieSizes, k = 1 := by decide
  have hroot : rootMeanDetermined 1 2 (1/2) c1RootV :=
    ⟨7/2, 1, by norm_num +decide [meanQCore, meanQLoop, childLookupKeys, qsaOf,
      get_child, assocFind, optMapList, CNode.value, newCNode, c1RootV,
      List.range_succ], by norm_num⟩
  exact ⟨htrav, hties, hroot, hround,
    c2_batch_independence id id (fun _ => 1) 1 2 1 0 (1/2) 2 7 c1RootV c1RootV
      c5Stats c5Stats (1/4) (1/4) (1/2) (1/2) [0, 0] [0, 0] 0 0 0 0 [0, 1] [9]
      c2WTrav c2WTrav (7/2) [] [(c2WOut 0, c5Stats), (c2WOut 1, c5Stats)]
      htrav hties hroot hround⟩

end RocketZero
